import Mathlib

/-!
# Carry-chain primitives of `include/mp/mp.h`

A shallow embedding of the limb-level macros of `mp.h`, of the strided
layout index `_S_IDX` and of the bit-addressing macros `mp_set_bit` and
`mp_test_bit`.

* A limb (`mp_limb`) is a natural number below `2 ^ W`; `W` is `LIMB_BITS`
  (32 or 64, fixed by `build_config.h`).  Unsigned C arithmetic on limbs wraps
  modulo `2 ^ W`, which the definitions spell out.
* The macros read and write the local variable `__carry_flag`.  Here every
  macro is a function that takes the flag held before it runs and returns the
  value assigned to `r` together with the flag held after it.
* The macros under `#if (LIMB_BITS == 32)` live in namespace `Limb32`, those
  under `#elif (LIMB_BITS == 64)` in namespace `Limb64`.
-/

namespace Mp

/-! ## Unsigned machine arithmetic -/

/-- Unsigned `W`-bit addition `x + y`: the sum wraps modulo `2 ^ W`. -/
def uadd (W x y : Nat) : Nat := (x + y) % 2 ^ W

/-- Unsigned `W`-bit subtraction `x - y`: the difference wraps modulo `2 ^ W`
(two's complement: `x + (2 ^ W - y)` reduced to `W` bits). -/
def usub (W x y : Nat) : Nat := (x + (2 ^ W - y % 2 ^ W)) % 2 ^ W

/-- Unsigned `W`-bit multiplication `x * y`: the product wraps modulo `2 ^ W`. -/
def umul (W x y : Nat) : Nat := (x * y) % 2 ^ W

/-- Conversion `(uintW_t)(x)` of an unsigned value to `W` bits. -/
def ucast (W x : Nat) : Nat := x % 2 ^ W

/-- The C expression `(x < y) ? 1 : 0`. -/
def ltFlag (x y : Nat) : Nat := if x < y then 1 else 0

/-! ## Addition with carry chain (`mp.h` lines 94-126) -/

/-- Macro `__add_cc(r, a, b)`: `r = a + b`, flag set to `(r < a) ? 1 : 0`.
The flag held before is not read. -/
def __add_cc (W : Nat) (_cf a b : Nat) : Nat × Nat :=
  let r := uadd W a b
  (r, ltFlag r a)

/-- Macro `__addc(r, a, b)`: `r = a + b + __cf`; the flag is not assigned. -/
def __addc (W : Nat) (cf a b : Nat) : Nat × Nat :=
  (uadd W (uadd W a b) cf, cf)

/-- Macro `__addc_cc(r, a, b)`: `t = a + b`, `c1 = (t < a)`, `r = t + __cf`,
flag set to `c1 | (r < t)`. -/
def __addc_cc (W : Nat) (cf a b : Nat) : Nat × Nat :=
  let t := uadd W a b
  let c1 := ltFlag t a
  let r := uadd W t cf
  (r, c1 ||| ltFlag r t)

/-- Macro `__addcy(carry)`: `carry = __carry_flag`. -/
def __addcy (cf : Nat) : Nat × Nat := (cf, cf)

/-- Macro `__addcy2(carry)`: `t = carry + __carry_flag`, flag set to
`(t < carry)`, `carry = t`. -/
def __addcy2 (W : Nat) (cf carry : Nat) : Nat × Nat :=
  let t := uadd W carry cf
  (t, ltFlag t carry)

/-! ## Subtraction with borrow chain (`mp.h` lines 128-150) -/

/-- Macro `__sub_cc(r, a, b)`: `r = a - b`, flag set to `(a < b) ? 1 : 0`.
The flag held before is not read. -/
def __sub_cc (W : Nat) (_cf a b : Nat) : Nat × Nat :=
  (usub W a b, ltFlag a b)

/-- Macro `__subc(r, a, b)`: `r = a - b - __cf`; the flag is not assigned. -/
def __subc (W : Nat) (cf a b : Nat) : Nat × Nat :=
  (usub W (usub W a b) cf, cf)

/-- Macro `__subc_cc(r, a, b)`: `t = a - b`, `c1 = (a < b)`, `r = t - __cf`,
flag set to `c1 | (t < __cf)`. -/
def __subc_cc (W : Nat) (cf a b : Nat) : Nat × Nat :=
  let t := usub W a b
  let c1 := ltFlag a b
  let r := usub W t cf
  (r, c1 ||| ltFlag t cf)

/-! ## Multiplication, 32-bit limbs (`mp.h` lines 154-232) -/

namespace Limb32

/-- Macro `__mul_lo(r, a, b)`: `r = (mp_limb)((uint32_t)(a) * (uint32_t)(b))`. -/
def __mul_lo (a b : Nat) : Nat :=
  ucast 32 (umul 32 (ucast 32 a) (ucast 32 b))

/-- Macro `__mul_hi(r, a, b)`:
`r = (mp_limb)(((uint64_t)(uint32_t)(a) * (uint64_t)(uint32_t)(b)) >> 32)`. -/
def __mul_hi (a b : Nat) : Nat :=
  ucast 32 (umul 64 (ucast 64 (ucast 32 a)) (ucast 64 (ucast 32 b)) >>> 32)

/-- Macro `__mad_lo(r, a, b, c)`: `r = low32(a * b) + c`; no flag. -/
def __mad_lo (a b c : Nat) : Nat :=
  uadd 32 (ucast 32 (umul 32 (ucast 32 a) (ucast 32 b))) c

/-- Macro `__mad_lo_cc(r, a, b, c)`: `r = __lo + __c`, flag set to `(r < __lo)`. -/
def __mad_lo_cc (_cf a b c : Nat) : Nat × Nat :=
  let lo := ucast 32 (umul 32 (ucast 32 a) (ucast 32 b))
  let c' := ucast 32 c
  let r := uadd 32 lo c'
  (r, ltFlag r lo)

/-- Macro `__mad_hi(r, a, b, c)`: `r = high32(a * b) + c`; no flag. -/
def __mad_hi (a b c : Nat) : Nat :=
  uadd 32 (ucast 32 (umul 64 (ucast 64 (ucast 32 a)) (ucast 64 (ucast 32 b)) >>> 32)) c

/-- Macro `__mad_hi_cc(r, a, b, c)`: `__s = __hi + c`, flag set to
`(__s < __hi)`, `r = __s`. -/
def __mad_hi_cc (_cf a b c : Nat) : Nat × Nat :=
  let t := umul 64 (ucast 64 (ucast 32 a)) (ucast 64 (ucast 32 b))
  let hi := ucast 32 (t >>> 32)
  let s := uadd 32 hi (ucast 32 c)
  (s, ltFlag s hi)

/-- Macro `__madc_hi(r, a, b, c)`: `r = high32(a * b) + c + __carry_flag`;
the flag is not assigned. -/
def __madc_hi (cf a b c : Nat) : Nat × Nat :=
  let t := umul 64 (ucast 64 (ucast 32 a)) (ucast 64 (ucast 32 b))
  (uadd 32 (uadd 32 (ucast 32 (t >>> 32)) (ucast 32 c)) cf, cf)

/-- Macro `__madc_lo_cc(r, a, b, c)`: `__t1 = __lo + __c`, `__c1 = (__t1 < __lo)`,
`r = __t1 + __cf`, flag set to `__c1 | (r < __t1)`. -/
def __madc_lo_cc (cf a b c : Nat) : Nat × Nat :=
  let lo := ucast 32 (umul 32 (ucast 32 a) (ucast 32 b))
  let c' := ucast 32 c
  let t1 := uadd 32 lo c'
  let c1 := ltFlag t1 lo
  let r := uadd 32 t1 cf
  (r, c1 ||| ltFlag r t1)

/-- Macro `__madc_hi_cc(r, a, b, c)`: the 64-bit sum
`__s = __hi + (uint32_t)(c) + __carry_flag`, `r = (mp_limb)__s`,
flag set to `(mp_limb)(__s >> 32)`. -/
def __madc_hi_cc (cf a b c : Nat) : Nat × Nat :=
  let t := umul 64 (ucast 64 (ucast 32 a)) (ucast 64 (ucast 32 b))
  let hi := ucast 32 (t >>> 32)
  let s := uadd 64 (uadd 64 (ucast 64 hi) (ucast 64 (ucast 32 c))) (ucast 64 cf)
  (ucast 32 s, ucast 32 (s >>> 32))

/-- The C shift `x << n` on a `uint32_t` operand.  The language defines it only
for `n < 32` (a shift by the width of the operand or more has no defined
result); where defined the result wraps modulo `2 ^ 32`. -/
def shl32 (x n : Nat) : Option Nat :=
  if n < 32 then some ((x <<< n) % 2 ^ 32) else none

/-- The C shift `x >> n` on a `uint32_t` operand, defined only for `n < 32`. -/
def shr32 (x n : Nat) : Option Nat :=
  if n < 32 then some (x >>> n) else none

/-- Macro `__shf_r_clamp(r, a, b, c)`: `__sh = c`;
`if (__sh >= 32) r = b >> (__sh - 32);`
`else r = ((uint32_t)(a) >> __sh) | ((uint32_t)(b) << (32 - __sh));`.
The result is `none` where a shift of the body has no defined result. -/
def __shf_r_clamp (a b c : Nat) : Option Nat :=
  let sh := ucast 32 c
  if sh ≥ 32 then shr32 b (usub 32 sh 32)
  else
    match shr32 (ucast 32 a) sh, shl32 (ucast 32 b) (usub 32 32 sh) with
    | some x, some y => some (x ||| y)
    | _, _ => none

/-- Macro `__shf_l_clamp(r, a, b, c)`: `__sh = c`;
`if (__sh >= 32) r = a << (__sh - 32);`
`else r = ((uint32_t)(b) << __sh) | ((uint32_t)(a) >> (32 - __sh));`.
The result is `none` where a shift of the body has no defined result. -/
def __shf_l_clamp (a b c : Nat) : Option Nat :=
  let sh := ucast 32 c
  if sh ≥ 32 then shl32 a (usub 32 sh 32)
  else
    match shl32 (ucast 32 b) sh, shr32 (ucast 32 a) (usub 32 32 sh) with
    | some x, some y => some (x ||| y)
    | _, _ => none

/-- The shift `x << n` of a 32-bit register on a target whose shifter reads
only the low five bits of the count (x86, AMD GCN): the count is taken modulo
32 and the result wraps modulo `2 ^ 32`. -/
def shl32_masked (x n : Nat) : Nat := (x <<< (n % 32)) % 2 ^ 32

/-- The shift `x >> n` of a 32-bit register on a target whose shifter reads
only the low five bits of the count. -/
def shr32_masked (x n : Nat) : Nat := x >>> (n % 32)

/-- The body of `__shf_r_clamp(r, a, b, c)` as it runs on a target whose
shifter takes the count modulo 32. -/
def __shf_r_clamp_masked (a b c : Nat) : Nat :=
  let sh := ucast 32 c
  if sh ≥ 32 then shr32_masked b (usub 32 sh 32)
  else shr32_masked (ucast 32 a) sh ||| shl32_masked (ucast 32 b) (usub 32 32 sh)

/-- The body of `__shf_l_clamp(r, a, b, c)` as it runs on a target whose
shifter takes the count modulo 32. -/
def __shf_l_clamp_masked (a b c : Nat) : Nat :=
  let sh := ucast 32 c
  if sh ≥ 32 then shl32_masked a (usub 32 sh 32)
  else shl32_masked (ucast 32 b) sh ||| shr32_masked (ucast 32 a) (usub 32 32 sh)

end Limb32

/-! ## Multiplication, 64-bit limbs (`mp.h` lines 234-290) -/

namespace Limb64

/-- Macro `__mul_lo(r, a, b)`: `r = (mp_limb)((uint64_t)(a) * (uint64_t)(b))`. -/
def __mul_lo (a b : Nat) : Nat :=
  ucast 64 (umul 64 (ucast 64 a) (ucast 64 b))

/-- Macro `__mul_hi(r, a, b)`:
`__t = (__uint128_t)(uint64_t)(a) * (__uint128_t)(uint64_t)(b)`,
`r = (mp_limb)(__t >> 64)`. -/
def __mul_hi (a b : Nat) : Nat :=
  ucast 64 (umul 128 (ucast 128 (ucast 64 a)) (ucast 128 (ucast 64 b)) >>> 64)

/-- Macro `__mad_lo(r, a, b, c)`: `r = low64(a * b) + c`; no flag. -/
def __mad_lo (a b c : Nat) : Nat :=
  uadd 64 (ucast 64 (umul 64 (ucast 64 a) (ucast 64 b))) c

/-- Macro `__mad_lo_cc(r, a, b, c)`: `r = __lo + __c`, flag set to `(r < __lo)`. -/
def __mad_lo_cc (_cf a b c : Nat) : Nat × Nat :=
  let lo := ucast 64 (umul 64 (ucast 64 a) (ucast 64 b))
  let c' := ucast 64 c
  let r := uadd 64 lo c'
  (r, ltFlag r lo)

/-- Macro `__mad_hi(r, a, b, c)`: `r = high64(a * b) + c`; no flag. -/
def __mad_hi (a b c : Nat) : Nat :=
  uadd 64 (ucast 64 (umul 128 (ucast 128 (ucast 64 a)) (ucast 128 (ucast 64 b)) >>> 64)) c

/-- Macro `__mad_hi_cc(r, a, b, c)`: `__s = __hi + c`, flag set to
`(__s < __hi)`, `r = __s`. -/
def __mad_hi_cc (_cf a b c : Nat) : Nat × Nat :=
  let t := umul 128 (ucast 128 (ucast 64 a)) (ucast 128 (ucast 64 b))
  let hi := ucast 64 (t >>> 64)
  let s := uadd 64 hi (ucast 64 c)
  (s, ltFlag s hi)

/-- Macro `__madc_hi(r, a, b, c)`: `r = high64(a * b) + c + __carry_flag`;
the flag is not assigned. -/
def __madc_hi (cf a b c : Nat) : Nat × Nat :=
  let t := umul 128 (ucast 128 (ucast 64 a)) (ucast 128 (ucast 64 b))
  (uadd 64 (uadd 64 (ucast 64 (t >>> 64)) (ucast 64 c)) cf, cf)

/-- Macro `__madc_lo_cc(r, a, b, c)`: `__t1 = __lo + __c`, `__c1 = (__t1 < __lo)`,
`r = __t1 + __cf`, flag set to `__c1 | (r < __t1)`. -/
def __madc_lo_cc (cf a b c : Nat) : Nat × Nat :=
  let lo := ucast 64 (umul 64 (ucast 64 a) (ucast 64 b))
  let c' := ucast 64 c
  let t1 := uadd 64 lo c'
  let c1 := ltFlag t1 lo
  let r := uadd 64 t1 cf
  (r, c1 ||| ltFlag r t1)

/-- Macro `__madc_hi_cc(r, a, b, c)`: the 128-bit sum
`__s = __hi + (uint64_t)(c) + __carry_flag`, `r = (mp_limb)__s`,
flag set to `(mp_limb)(__s >> 64)`. -/
def __madc_hi_cc (cf a b c : Nat) : Nat × Nat :=
  let t := umul 128 (ucast 128 (ucast 64 a)) (ucast 128 (ucast 64 b))
  let hi := ucast 64 (t >>> 64)
  let s := uadd 128 (uadd 128 (ucast 128 hi) (ucast 128 (ucast 64 c))) (ucast 128 cf)
  (ucast 64 s, ucast 64 (s >>> 64))

end Limb64

/-! ## Strided layout (`mp.h` lines 44-54) -/

/-- Macro `_S_IDX(element, limb)`: `element + (MP_STRIDE * (limb))`, with
`MP_STRIDE = BATCH_JOB_SIZE` passed as `N`. -/
def _S_IDX (N element limb : Nat) : Nat := element + N * limb

/-- The assignment `buf[_S_IDX(element, limb)] = v` on an `mp_strided_t`
buffer, held as the list of its `MP_STRIDE * LIMBS` limbs. -/
def strided_write (N : Nat) (buf : List Nat) (element limb v : Nat) : List Nat :=
  buf.set (_S_IDX N element limb) v

/-- The read `buf[_S_IDX(element, limb)]` of an `mp_strided_t` buffer; `none`
outside the buffer. -/
def strided_read (N : Nat) (buf : List Nat) (element limb : Nat) : Option Nat :=
  buf[_S_IDX N element limb]?

/-! ## Multi-limb integers (`mp_t`) and the limb chains -/

/-- The unsigned integer held by a sequence of `W`-bit limbs, least-significant
limb first. -/
def limbsValue (W : Nat) : List Nat → Nat
  | [] => 0
  | x :: xs => x + 2 ^ W * limbsValue W xs

/-- Modelled from the spec: the loop of `mp_add` over limbs 1..L-1 (the body
of `mp_add` is not part of `mp.h`, which only declares it).  §4.2: the
operation chains the primitives limb by limb from least to most significant,
maintaining one carry state: `__addc_cc(r[i], a[i], b[i])` for each further
limb, in order. -/
def addc_cc_chain (W : Nat) : Nat → List Nat → List Nat → List Nat × Nat
  | cf, a :: as, b :: bs =>
      let s := __addc_cc W cf a b
      let rest := addc_cc_chain W s.2 as bs
      (s.1 :: rest.1, rest.2)
  | cf, _, _ => ([], cf)

/-- Modelled from the spec: the body of `mp_add` (declared in `mp.h`, defined
elsewhere).  §4.2 `add(r, a, b) -> carry_out`: the flag starts at 0
(`mp_limb __carry_flag = 0;`), `__add_cc` runs on limb 0, `__addc_cc` on limbs
1..L-1, and the final flag is returned as the carry. -/
def mp_add (W : Nat) : List Nat → List Nat → List Nat × Nat
  | a :: as, b :: bs =>
      let s := __add_cc W 0 a b
      let rest := addc_cc_chain W s.2 as bs
      (s.1 :: rest.1, rest.2)
  | _, _ => ([], 0)

/-- Modelled from the spec: the loop of `mp_sub` over limbs 1..L-1 (the body
of `mp_sub` is not part of `mp.h`, which only declares it):
`__subc_cc(r[i], a[i], b[i])` for each further limb, in order, on one borrow
flag. -/
def subc_cc_chain (W : Nat) : Nat → List Nat → List Nat → List Nat × Nat
  | cf, a :: as, b :: bs =>
      let s := __subc_cc W cf a b
      let rest := subc_cc_chain W s.2 as bs
      (s.1 :: rest.1, rest.2)
  | cf, _, _ => ([], cf)

/-- Modelled from the spec: the body of `mp_sub` (declared in `mp.h`, defined
elsewhere).  §4.2 `sub(r, a, b) -> borrow_out`: the flag starts at 0,
`__sub_cc` runs on limb 0, `__subc_cc` on limbs 1..L-1, and the final flag is
returned as the borrow. -/
def mp_sub (W : Nat) : List Nat → List Nat → List Nat × Nat
  | a :: as, b :: bs =>
      let s := __sub_cc W 0 a b
      let rest := subc_cc_chain W s.2 as bs
      (s.1 :: rest.1, rest.2)
  | _, _ => ([], 0)

/-! ## Bit addressing (`mp.h` lines 569-578) -/

/-- The C expression `1 << n` on the `int` constant `1` (`int` is 32 bits
wide).  The shift has a defined result only for `n < 32`; for `n = 31` the bit
lands in the sign position and the result is `INT_MIN` (the rule of C++14 and
later; the header is compiled by hipcc or g++). -/
def int_one_shl (n : Nat) : Option Int :=
  if n < 31 then some (2 ^ n) else if n = 31 then some (-(2 ^ 31)) else none

/-- Conversion of an `int` operand to the unsigned `W`-bit limb type in
`limb & mask` (usual arithmetic conversions): the value is reduced modulo
`2 ^ W`, so a negative `int` is sign-extended. -/
def int_to_limb (W : Nat) (x : Int) : Nat := (x % (2 : Int) ^ W).toNat

/-- Macro `mp_test_bit(a, bit)`:
`!!(((a)[(bit)/LIMB_BITS]) & (1 << ((bit)%LIMB_BITS)))`.
The result is `none` when the limb index lies outside `a` or the shift has no
defined result. -/
def mp_test_bit (W : Nat) (a : List Nat) (bit : Nat) : Option Bool :=
  match a[bit / W]?, int_one_shl (bit % W) with
  | some limb, some m => some (limb &&& int_to_limb W m != 0)
  | _, _ => none

/-- The shift `1 << n` of a 32-bit `int` register on a target whose shifter
reads only the low five bits of the count (x86, AMD GCN), read back as a
signed `int`. -/
def int_one_shl_masked (n : Nat) : Int :=
  if n % 32 = 31 then -(2 ^ 31) else 2 ^ (n % 32)

/-- The body of `mp_test_bit(a, bit)` as it runs on a target whose shifter
takes the count modulo 32. -/
def mp_test_bit_masked (W : Nat) (a : List Nat) (bit : Nat) : Option Bool :=
  match a[bit / W]? with
  | some limb => some (limb &&& int_to_limb W (int_one_shl_masked (bit % W)) != 0)
  | none => none

/-- The C expression `(mp_limb_t)1 << n`.  The type `mp_limb_t` is not declared
in `mp.h`; it is taken as an unsigned type of `T` bits, so the shift is defined
for `n < T`. -/
def limb_t_one_shl (T n : Nat) : Option Nat :=
  if n < T then some ((1 <<< n) % 2 ^ T) else none

/-- Macro `mp_set_bit(a, bit)`:
`((a)[(bit)/LIMB_BITS] |= ((mp_limb_t)1 << ((bit)%LIMB_BITS)))`.
The or-ed value is stored back into the `W`-bit limb.  The result is `none`
when the limb index lies outside `a` or the shift has no defined result. -/
def mp_set_bit (W T : Nat) (a : List Nat) (bit : Nat) : Option (List Nat) :=
  match a[bit / W]?, limb_t_one_shl T (bit % W) with
  | some limb, some m => some (a.set (bit / W) (ucast W (limb ||| m)))
  | _, _ => none

/-! ## The macros selected by `LIMB_BITS`

`#if (LIMB_BITS == 32) ... #elif (LIMB_BITS == 64) ... #endif`: the 32-bit
bodies for `W = 32`, the 64-bit bodies otherwise (the header defines the macros
for no other width; the theorems assume `W = 32 ∨ W = 64`). -/

/-- Macro `__mul_lo` for `LIMB_BITS = W`. -/
def __mul_lo (W a b : Nat) : Nat :=
  if W = 32 then Limb32.__mul_lo a b else Limb64.__mul_lo a b

/-- Macro `__mul_hi` for `LIMB_BITS = W`. -/
def __mul_hi (W a b : Nat) : Nat :=
  if W = 32 then Limb32.__mul_hi a b else Limb64.__mul_hi a b

/-- Macro `__mad_lo_cc` for `LIMB_BITS = W`. -/
def __mad_lo_cc (W cf a b c : Nat) : Nat × Nat :=
  if W = 32 then Limb32.__mad_lo_cc cf a b c else Limb64.__mad_lo_cc cf a b c

/-- Macro `__mad_hi_cc` for `LIMB_BITS = W`. -/
def __mad_hi_cc (W cf a b c : Nat) : Nat × Nat :=
  if W = 32 then Limb32.__mad_hi_cc cf a b c else Limb64.__mad_hi_cc cf a b c

/-- Macro `__madc_hi` for `LIMB_BITS = W`. -/
def __madc_hi (W cf a b c : Nat) : Nat × Nat :=
  if W = 32 then Limb32.__madc_hi cf a b c else Limb64.__madc_hi cf a b c

/-- Macro `__madc_lo_cc` for `LIMB_BITS = W`. -/
def __madc_lo_cc (W cf a b c : Nat) : Nat × Nat :=
  if W = 32 then Limb32.__madc_lo_cc cf a b c else Limb64.__madc_lo_cc cf a b c

/-- Macro `__madc_hi_cc` for `LIMB_BITS = W`. -/
def __madc_hi_cc (W cf a b c : Nat) : Nat × Nat :=
  if W = 32 then Limb32.__madc_hi_cc cf a b c else Limb64.__madc_hi_cc cf a b c

/-! ## Sequences of macro invocations on one flag -/

/-- The statement sequence `__mad_lo_cc(r0, a, b, c); __madc_hi(r1, a, b, d);`
on one `__carry_flag`: the pair `(r0, r1)`. -/
def mad_lo_cc_madc_hi (W cf a b c d : Nat) : Nat × Nat :=
  let s0 := __mad_lo_cc W cf a b c
  let s1 := __madc_hi W s0.2 a b d
  (s0.1, s1.1)

/-- The statement sequence `__mul_hi(h, a, b); __addc_cc(r, h, c);`: the
comparison-based two-stage form of a high multiply-add with carry in and
out. -/
def mul_hi_addc_cc (W cf a b c : Nat) : Nat × Nat :=
  __addc_cc W cf (__mul_hi W a b) c

/-- The statement sequence `__mul_lo(l, a, b); __addc_cc(r, l, c);`: the
comparison-based two-stage form of a low multiply-add with carry in and
out. -/
def mul_lo_addc_cc (W cf a b c : Nat) : Nat × Nat :=
  __addc_cc W cf (__mul_lo W a b) c

/-- One invocation of a macro that reads or writes `__carry_flag`, with its
operands. -/
inductive Prim where
  | add_cc (a b : Nat)
  | addc (a b : Nat)
  | addc_cc (a b : Nat)
  | addcy
  | addcy2 (carry : Nat)
  | sub_cc (a b : Nat)
  | subc (a b : Nat)
  | subc_cc (a b : Nat)
  | mad_lo_cc (a b c : Nat)
  | mad_hi_cc (a b c : Nat)
  | madc_hi (a b c : Nat)
  | madc_lo_cc (a b c : Nat)
  | madc_hi_cc (a b c : Nat)

/-- The flag held after one macro invocation that started with flag `cf`. -/
def Prim.flagAfter (W cf : Nat) : Prim → Nat
  | .add_cc a b => (__add_cc W cf a b).2
  | .addc a b => (__addc W cf a b).2
  | .addc_cc a b => (__addc_cc W cf a b).2
  | .addcy => (__addcy cf).2
  | .addcy2 carry => (__addcy2 W cf carry).2
  | .sub_cc a b => (__sub_cc W cf a b).2
  | .subc a b => (__subc W cf a b).2
  | .subc_cc a b => (__subc_cc W cf a b).2
  | .mad_lo_cc a b c => (__mad_lo_cc W cf a b c).2
  | .mad_hi_cc a b c => (__mad_hi_cc W cf a b c).2
  | .madc_hi a b c => (__madc_hi W cf a b c).2
  | .madc_lo_cc a b c => (__madc_lo_cc W cf a b c).2
  | .madc_hi_cc a b c => (__madc_hi_cc W cf a b c).2

/-- The flags held along a chain of macro invocations: the starting flag,
then the flag after each invocation in order. -/
def chainFlags (W : Nat) : Nat → List Prim → List Nat
  | cf, [] => [cf]
  | cf, p :: ps => cf :: chainFlags W (p.flagAfter W cf) ps

end Mp

/-! ## Arithmetic helper lemmas -/

namespace Mp

theorem lor_bit_cases (x y : Nat) (hx : x = 0 ∨ x = 1) (hy : y = 0 ∨ y = 1) :
    (x ||| y = 0 ∧ x = 0 ∧ y = 0) ∨ (x ||| y = 1 ∧ (x = 1 ∨ y = 1)) := by
  rcases hx with rfl | rfl <;> rcases hy with rfl | rfl <;> simp

theorem ltFlag_cases (x y : Nat) :
    (ltFlag x y = 1 ∧ x < y) ∨ (ltFlag x y = 0 ∧ y ≤ x) := by
  unfold ltFlag
  by_cases h : x < y
  · left; simp [h]
  · right; simp [h]; omega

/-- A value below twice the modulus is reduced by at most one subtraction. -/
theorem mod_lt_two_mul (x P : Nat) (hx : x < 2 * P) :
    (x < P ∧ x % P = x) ∨ (P ≤ x ∧ x % P = x - P) := by
  by_cases h : x < P
  · left; exact ⟨h, Nat.mod_eq_of_lt h⟩
  · right
    have h1 : P ≤ x := Nat.le_of_not_lt h
    refine ⟨h1, ?_⟩
    rw [Nat.mod_eq_sub_mod h1]
    exact Nat.mod_eq_of_lt (by omega)

theorem uadd_cases (W x y : Nat) (hx : x < 2 ^ W) (hy : y < 2 ^ W) :
    (x + y < 2 ^ W ∧ uadd W x y = x + y) ∨
    (2 ^ W ≤ x + y ∧ uadd W x y + 2 ^ W = x + y) := by
  unfold uadd
  rcases mod_lt_two_mul (x + y) (2 ^ W) (by omega) with ⟨h, e⟩ | ⟨h, e⟩
  · left; exact ⟨h, e⟩
  · right; refine ⟨h, ?_⟩; omega

theorem usub_cases (W x y : Nat) (hx : x < 2 ^ W) (hy : y < 2 ^ W) :
    (y ≤ x ∧ usub W x y + y = x) ∨
    (x < y ∧ usub W x y + y = x + 2 ^ W) := by
  unfold usub
  rw [Nat.mod_eq_of_lt hy]
  rcases mod_lt_two_mul (x + (2 ^ W - y)) (2 ^ W) (by omega) with ⟨h, e⟩ | ⟨h, e⟩
  · right; refine ⟨by omega, ?_⟩; omega
  · left; refine ⟨by omega, ?_⟩; omega

theorem uadd_lt (W x y : Nat) : uadd W x y < 2 ^ W :=
  Nat.mod_lt _ (Nat.pos_pow_of_pos W (by decide))

theorem usub_lt (W x y : Nat) : usub W x y < 2 ^ W :=
  Nat.mod_lt _ (Nat.pos_pow_of_pos W (by decide))

theorem two_le_two_pow (W : Nat) (hW : 0 < W) : 2 ≤ 2 ^ W := by
  calc 2 = 2 ^ 1 := by norm_num
    _ ≤ 2 ^ W := Nat.pow_le_pow_right (by decide) hW

/-- One `__addc_cc` step is exact: result limb plus `2 ^ W` times the flag is
the full sum. -/
theorem addc_cc_step (W cf a b : Nat) (hW : 0 < W) (ha : a < 2 ^ W)
    (hb : b < 2 ^ W) (hcf : cf ≤ 1) :
    (__addc_cc W cf a b).1 + 2 ^ W * (__addc_cc W cf a b).2 = a + b + cf ∧
    (__addc_cc W cf a b).1 < 2 ^ W ∧ (__addc_cc W cf a b).2 ≤ 1 := by
  have h2 := two_le_two_pow W hW
  have hcf2 : cf < 2 ^ W := by omega
  simp only [__addc_cc]
  have ht := uadd_lt W a b
  have hr := uadd_lt W (uadd W a b) cf
  rcases uadd_cases W a b ha hb with ⟨h1, e1⟩ | ⟨h1, e1⟩ <;>
  rcases uadd_cases W (uadd W a b) cf ht hcf2 with ⟨h3, e3⟩ | ⟨h3, e3⟩ <;>
  rcases ltFlag_cases (uadd W a b) a with ⟨f1, g1⟩ | ⟨f1, g1⟩ <;>
  rcases ltFlag_cases (uadd W (uadd W a b) cf) (uadd W a b) with ⟨f2, g2⟩ | ⟨f2, g2⟩ <;>
  rw [f1, f2] <;> norm_num <;> omega

/-- One `__subc_cc` step is exact: result limb plus subtrahend plus borrow-in
is the minuend plus `2 ^ W` times the flag. -/
theorem subc_cc_step (W cf a b : Nat) (hW : 0 < W) (ha : a < 2 ^ W)
    (hb : b < 2 ^ W) (hcf : cf ≤ 1) :
    (__subc_cc W cf a b).1 + b + cf = a + 2 ^ W * (__subc_cc W cf a b).2 ∧
    (__subc_cc W cf a b).1 < 2 ^ W ∧ (__subc_cc W cf a b).2 ≤ 1 := by
  have h2 := two_le_two_pow W hW
  have hcf2 : cf < 2 ^ W := by omega
  simp only [__subc_cc]
  have ht := usub_lt W a b
  have hr := usub_lt W (usub W a b) cf
  rcases usub_cases W a b ha hb with ⟨h1, e1⟩ | ⟨h1, e1⟩ <;>
  rcases usub_cases W (usub W a b) cf ht hcf2 with ⟨h3, e3⟩ | ⟨h3, e3⟩ <;>
  rcases ltFlag_cases a b with ⟨f1, g1⟩ | ⟨f1, g1⟩ <;>
  rcases ltFlag_cases (usub W a b) cf with ⟨f2, g2⟩ | ⟨f2, g2⟩ <;>
  rw [f1, f2] <;> norm_num <;> omega


theorem int_emod_of_borrow (x : Int) (r P c : Nat) (h : x = (r : Int) - (P : Int) * (c : Int))
    (hr : r < P) : x % (P : Int) = (r : Int) := by
  have e : x = (r : Int) + (P : Int) * (-(c : Int)) := by rw [h]; ring
  rw [e, Int.add_mul_emod_self_left]
  exact Int.emod_eq_of_lt (by omega) (by exact_mod_cast hr)

theorem nat_mod_of_carry (s r P c : Nat) (h : r + P * c = s) (hr : r < P) : s % P = r := by
  rw [← h, Nat.add_mul_mod_self_left]
  exact Nat.mod_eq_of_lt hr

theorem width_pos (W : Nat) (hW : W = 32 ∨ W = 64) : 0 < W := by omega

theorem two_pow_pos (W : Nat) : 0 < 2 ^ W := Nat.pos_pow_of_pos W (by decide)

theorem add_cc_step (W cf a b : Nat) (ha : a < 2 ^ W) (hb : b < 2 ^ W) :
    (__add_cc W cf a b).1 + 2 ^ W * (__add_cc W cf a b).2 = a + b ∧
    (__add_cc W cf a b).1 < 2 ^ W ∧ (__add_cc W cf a b).2 ≤ 1 := by
  simp only [__add_cc]
  have ht := uadd_lt W a b
  rcases uadd_cases W a b ha hb with ⟨h1, e1⟩ | ⟨h1, e1⟩ <;>
  rcases ltFlag_cases (uadd W a b) a with ⟨f1, g1⟩ | ⟨f1, g1⟩ <;>
  rw [f1] <;> norm_num <;> omega

theorem sub_cc_step (W cf a b : Nat) (ha : a < 2 ^ W) (hb : b < 2 ^ W) :
    (__sub_cc W cf a b).1 + b = a + 2 ^ W * (__sub_cc W cf a b).2 ∧
    (__sub_cc W cf a b).1 < 2 ^ W ∧ (__sub_cc W cf a b).2 ≤ 1 := by
  simp only [__sub_cc]
  have ht := usub_lt W a b
  rcases usub_cases W a b ha hb with ⟨h1, e1⟩ | ⟨h1, e1⟩ <;>
  rcases ltFlag_cases a b with ⟨f1, g1⟩ | ⟨f1, g1⟩ <;>
  rw [f1] <;> norm_num <;> omega

/-- Limbs below `2 ^ W` hold a value below `2 ^ (W * L)`. -/
theorem limbsValue_lt (W : Nat) : ∀ (xs : List Nat), (∀ x ∈ xs, x < 2 ^ W) →
    limbsValue W xs < 2 ^ (W * xs.length)
  | [], _ => by simp [limbsValue]
  | x :: xs, h => by
      have hx : x < 2 ^ W := h x (List.mem_cons_self _ _)
      have ih := limbsValue_lt W xs (fun y hy => h y (List.mem_cons_of_mem _ hy))
      have e : 2 ^ (W * (x :: xs).length) = 2 ^ W * 2 ^ (W * xs.length) := by
        rw [List.length_cons, Nat.mul_succ, Nat.pow_add, Nat.mul_comm]
      rw [e]
      simp only [limbsValue]
      have : 2 ^ W * (limbsValue W xs + 1) ≤ 2 ^ W * 2 ^ (W * xs.length) :=
        Nat.mul_le_mul_left _ ih
      rw [Nat.mul_add, Nat.mul_one] at this
      omega

theorem addc_cc_chain_spec (W : Nat) (hW : 0 < W) : ∀ (a b : List Nat) (cf : Nat),
    cf ≤ 1 → b.length = a.length → (∀ x ∈ a, x < 2 ^ W) → (∀ x ∈ b, x < 2 ^ W) →
    (addc_cc_chain W cf a b).1.length = a.length ∧
    (∀ x ∈ (addc_cc_chain W cf a b).1, x < 2 ^ W) ∧
    (addc_cc_chain W cf a b).2 ≤ 1 ∧
    limbsValue W (addc_cc_chain W cf a b).1 + 2 ^ (W * a.length) * (addc_cc_chain W cf a b).2
      = limbsValue W a + limbsValue W b + cf
  | [], b, cf, hcf, hlen, _, _ => by
      have hb : b = [] := List.length_eq_zero.mp (by simpa using hlen)
      subst hb
      simp [addc_cc_chain, limbsValue, hcf]
  | a :: as, [], cf, _, hlen, _, _ => by simp at hlen
  | a :: as, b :: bs, cf, hcf, hlen, ha, hb => by
      have ha0 : a < 2 ^ W := ha a (List.mem_cons_self _ _)
      have hb0 : b < 2 ^ W := hb b (List.mem_cons_self _ _)
      obtain ⟨s1, s2, s3⟩ := addc_cc_step W cf a b hW ha0 hb0 hcf
      obtain ⟨i1, i2, i3, i4⟩ := addc_cc_chain_spec W hW as bs (__addc_cc W cf a b).2 s3
        (by simpa using hlen) (fun y hy => ha y (List.mem_cons_of_mem _ hy))
        (fun y hy => hb y (List.mem_cons_of_mem _ hy))
      simp only [addc_cc_chain, limbsValue, List.length_cons]
      refine ⟨by rw [i1], ?_, i3, ?_⟩
      · intro x hx
        rcases List.mem_cons.mp hx with rfl | hx
        · exact s2
        · exact i2 x hx
      · have e : 2 ^ (W * (as.length + 1)) = 2 ^ W * 2 ^ (W * as.length) := by
          rw [Nat.mul_succ, Nat.pow_add, Nat.mul_comm]
        rw [e]
        zify at s1 i4 ⊢
        linear_combination s1 + (2 : Int) ^ W * i4

theorem subc_cc_chain_spec (W : Nat) (hW : 0 < W) : ∀ (a b : List Nat) (cf : Nat),
    cf ≤ 1 → b.length = a.length → (∀ x ∈ a, x < 2 ^ W) → (∀ x ∈ b, x < 2 ^ W) →
    (subc_cc_chain W cf a b).1.length = a.length ∧
    (∀ x ∈ (subc_cc_chain W cf a b).1, x < 2 ^ W) ∧
    (subc_cc_chain W cf a b).2 ≤ 1 ∧
    limbsValue W (subc_cc_chain W cf a b).1 + limbsValue W b + cf
      = limbsValue W a + 2 ^ (W * a.length) * (subc_cc_chain W cf a b).2
  | [], b, cf, hcf, hlen, _, _ => by
      have hb : b = [] := List.length_eq_zero.mp (by simpa using hlen)
      subst hb
      simp [subc_cc_chain, limbsValue, hcf]
  | a :: as, [], cf, _, hlen, _, _ => by simp at hlen
  | a :: as, b :: bs, cf, hcf, hlen, ha, hb => by
      have ha0 : a < 2 ^ W := ha a (List.mem_cons_self _ _)
      have hb0 : b < 2 ^ W := hb b (List.mem_cons_self _ _)
      obtain ⟨s1, s2, s3⟩ := subc_cc_step W cf a b hW ha0 hb0 hcf
      obtain ⟨i1, i2, i3, i4⟩ := subc_cc_chain_spec W hW as bs (__subc_cc W cf a b).2 s3
        (by simpa using hlen) (fun y hy => ha y (List.mem_cons_of_mem _ hy))
        (fun y hy => hb y (List.mem_cons_of_mem _ hy))
      simp only [subc_cc_chain, limbsValue, List.length_cons]
      refine ⟨by rw [i1], ?_, i3, ?_⟩
      · intro x hx
        rcases List.mem_cons.mp hx with rfl | hx
        · exact s2
        · exact i2 x hx
      · have e : 2 ^ (W * (as.length + 1)) = 2 ^ W * 2 ^ (W * as.length) := by
          rw [Nat.mul_succ, Nat.pow_add, Nat.mul_comm]
        rw [e]
        zify at s1 i4 ⊢
        linear_combination s1 + (2 : Int) ^ W * i4


theorem flag_of_carry (s r P c : Nat) (h : r + P * c = s) (hr : r < P) (hc : c ≤ 1) :
    c = if P ≤ s then 1 else 0 := by
  have : c = 0 ∨ c = 1 := by omega
  rcases this with rfl | rfl
  · simp at h; rw [if_neg (by omega)]
  · simp at h; rw [if_pos (by omega)]

theorem flag_of_borrow (x y r P c : Nat) (h : r + y = x + P * c) (hr : r < P)
    (hc : c ≤ 1) : c = if x < y then 1 else 0 := by
  have : c = 0 ∨ c = 1 := by omega
  rcases this with rfl | rfl
  · simp at h; rw [if_neg (by omega)]
  · simp at h; rw [if_pos (by omega)]

/-- C1: the carry chain `__add_cc` on limb 0, `__addc_cc` on limbs 1..L-1 (one
flag threaded through) yields limbs of value `(a + b) mod 2 ^ (W * L)` and a
final carry that is 1 iff `a + b ≥ 2 ^ (W * L)` and 0 otherwise, for `W = 32`
and `W = 64`, every `L ≥ 1` and all `L`-limb integers `a`, `b`. -/
theorem mp_add_chain_correct (W : Nat) (hW : W = 32 ∨ W = 64) (a b : List Nat)
    (hL : 1 ≤ a.length) (hlen : b.length = a.length)
    (ha : ∀ x ∈ a, x < 2 ^ W) (hb : ∀ x ∈ b, x < 2 ^ W) :
    (mp_add W a b).1.length = a.length ∧
    (∀ x ∈ (mp_add W a b).1, x < 2 ^ W) ∧
    limbsValue W (mp_add W a b).1
      = (limbsValue W a + limbsValue W b) % 2 ^ (W * a.length) ∧
    (mp_add W a b).2
      = (if 2 ^ (W * a.length) ≤ limbsValue W a + limbsValue W b then 1 else 0) := by
  have key : (mp_add W a b).1.length = a.length ∧
      (∀ x ∈ (mp_add W a b).1, x < 2 ^ W) ∧ (mp_add W a b).2 ≤ 1 ∧
      limbsValue W (mp_add W a b).1 + 2 ^ (W * a.length) * (mp_add W a b).2
        = limbsValue W a + limbsValue W b := by
    match a, b, hL, hlen, ha, hb with
    | [], _, hL, _, _, _ => simp at hL
    | x :: as, [], _, hlen, _, _ => simp at hlen
    | x :: as, y :: bs, _, hlen, ha, hb =>
      have hx : x < 2 ^ W := ha x (List.mem_cons_self _ _)
      have hy : y < 2 ^ W := hb y (List.mem_cons_self _ _)
      obtain ⟨s1, s2, s3⟩ := add_cc_step W 0 x y hx hy
      obtain ⟨i1, i2, i3, i4⟩ := addc_cc_chain_spec W (width_pos W hW) as bs
        (__add_cc W 0 x y).2 s3 (by simpa using hlen)
        (fun z hz => ha z (List.mem_cons_of_mem _ hz))
        (fun z hz => hb z (List.mem_cons_of_mem _ hz))
      simp only [mp_add, limbsValue, List.length_cons]
      refine ⟨by rw [i1], ?_, i3, ?_⟩
      · intro z hz
        rcases List.mem_cons.mp hz with rfl | hz
        · exact s2
        · exact i2 z hz
      · have e : 2 ^ (W * (as.length + 1)) = 2 ^ W * 2 ^ (W * as.length) := by
          rw [Nat.mul_succ, Nat.pow_add, Nat.mul_comm]
        rw [e]
        zify at s1 i4 ⊢
        linear_combination s1 + (2 : Int) ^ W * i4
  obtain ⟨k1, k2, k3, k4⟩ := key
  have hlt : limbsValue W (mp_add W a b).1 < 2 ^ (W * a.length) := by
    have := limbsValue_lt W (mp_add W a b).1 k2
    rwa [k1] at this
  exact ⟨k1, k2, (nat_mod_of_carry _ _ _ _ k4 hlt).symm, flag_of_carry _ _ _ _ k4 hlt k3⟩

theorem mp_add_chain_correct_witness :
    mp_add 32 [0xFFFFFFFF, 0] [1, 0] = ([0, 1], 0) ∧
    limbsValue 32 (mp_add 32 [0xFFFFFFFF, 0] [1, 0]).1
      = (limbsValue 32 [0xFFFFFFFF, 0] + limbsValue 32 [1, 0]) % 2 ^ (32 * 2) ∧
    (mp_add 32 [0xFFFFFFFF, 0] [1, 0]).2
      = (if 2 ^ (32 * 2) ≤ limbsValue 32 [0xFFFFFFFF, 0] + limbsValue 32 [1, 0]
          then 1 else 0) :=
  ⟨by decide,
   (mp_add_chain_correct 32 (Or.inl rfl) [0xFFFFFFFF, 0] [1, 0] (by decide) rfl
      (by decide) (by decide)).2.2.1,
   (mp_add_chain_correct 32 (Or.inl rfl) [0xFFFFFFFF, 0] [1, 0] (by decide) rfl
      (by decide) (by decide)).2.2.2⟩

/-- C2: the borrow chain `__sub_cc` on limb 0, `__subc_cc` on limbs 1..L-1
(one flag threaded through) yields limbs of value `(a - b) mod 2 ^ (W * L)`
and a final borrow that is 1 iff `a < b` and 0 otherwise, for `W = 32` and
`W = 64`, every `L ≥ 1` and all `L`-limb integers `a`, `b`. -/
theorem mp_sub_chain_correct (W : Nat) (hW : W = 32 ∨ W = 64) (a b : List Nat)
    (hL : 1 ≤ a.length) (hlen : b.length = a.length)
    (ha : ∀ x ∈ a, x < 2 ^ W) (hb : ∀ x ∈ b, x < 2 ^ W) :
    (mp_sub W a b).1.length = a.length ∧
    (∀ x ∈ (mp_sub W a b).1, x < 2 ^ W) ∧
    ((limbsValue W (mp_sub W a b).1 : Nat) : Int)
      = ((limbsValue W a : Int) - (limbsValue W b : Int)) % ((2 ^ (W * a.length) : Nat) : Int) ∧
    (mp_sub W a b).2 = (if limbsValue W a < limbsValue W b then 1 else 0) := by
  have key : (mp_sub W a b).1.length = a.length ∧
      (∀ x ∈ (mp_sub W a b).1, x < 2 ^ W) ∧ (mp_sub W a b).2 ≤ 1 ∧
      limbsValue W (mp_sub W a b).1 + limbsValue W b
        = limbsValue W a + 2 ^ (W * a.length) * (mp_sub W a b).2 := by
    match a, b, hL, hlen, ha, hb with
    | [], _, hL, _, _, _ => simp at hL
    | x :: as, [], _, hlen, _, _ => simp at hlen
    | x :: as, y :: bs, _, hlen, ha, hb =>
      have hx : x < 2 ^ W := ha x (List.mem_cons_self _ _)
      have hy : y < 2 ^ W := hb y (List.mem_cons_self _ _)
      obtain ⟨s1, s2, s3⟩ := sub_cc_step W 0 x y hx hy
      obtain ⟨i1, i2, i3, i4⟩ := subc_cc_chain_spec W (width_pos W hW) as bs
        (__sub_cc W 0 x y).2 s3 (by simpa using hlen)
        (fun z hz => ha z (List.mem_cons_of_mem _ hz))
        (fun z hz => hb z (List.mem_cons_of_mem _ hz))
      simp only [mp_sub, limbsValue, List.length_cons]
      refine ⟨by rw [i1], ?_, i3, ?_⟩
      · intro z hz
        rcases List.mem_cons.mp hz with rfl | hz
        · exact s2
        · exact i2 z hz
      · have e : 2 ^ (W * (as.length + 1)) = 2 ^ W * 2 ^ (W * as.length) := by
          rw [Nat.mul_succ, Nat.pow_add, Nat.mul_comm]
        rw [e]
        zify at s1 i4 ⊢
        linear_combination s1 + (2 : Int) ^ W * i4
  obtain ⟨k1, k2, k3, k4⟩ := key
  have hlt : limbsValue W (mp_sub W a b).1 < 2 ^ (W * a.length) := by
    have := limbsValue_lt W (mp_sub W a b).1 k2
    rwa [k1] at this
  refine ⟨k1, k2, ?_, flag_of_borrow _ _ _ _ _ k4 hlt k3⟩
  symm
  apply int_emod_of_borrow _ _ _ (mp_sub W a b).2 _ hlt
  have := congrArg (fun n : Nat => (n : Int)) k4
  simp only [Nat.cast_add, Nat.cast_mul] at this
  linarith

theorem mp_sub_chain_correct_witness :
    mp_sub 32 [0, 0] [1, 0] = ([0xFFFFFFFF, 0xFFFFFFFF], 1) ∧
    ((limbsValue 32 (mp_sub 32 [0, 0] [1, 0]).1 : Nat) : Int)
      = ((limbsValue 32 [0, 0] : Int) - (limbsValue 32 [1, 0] : Int))
          % ((2 ^ (32 * 2) : Nat) : Int) ∧
    (mp_sub 32 [0, 0] [1, 0]).2
      = (if limbsValue 32 [0, 0] < limbsValue 32 [1, 0] then 1 else 0) :=
  ⟨by decide,
   (mp_sub_chain_correct 32 (Or.inl rfl) [0, 0] [1, 0] (by decide) rfl
      (by decide) (by decide)).2.2.1,
   (mp_sub_chain_correct 32 (Or.inl rfl) [0, 0] [1, 0] (by decide) rfl
      (by decide) (by decide)).2.2.2⟩


/-- C3: for limbs `a`, `b` and `carry_in ∈ {0, 1}`, `__addc_cc` yields
`r = (a + b + carry_in) mod 2 ^ W` and a carry that is 1 iff
`a + b + carry_in ≥ 2 ^ W` (0 otherwise); equivalently
`r + 2 ^ W * carry_out = a + b + carry_in`. -/
theorem addc_cc_correct (W a b cf : Nat) (hW : W = 32 ∨ W = 64) (ha : a < 2 ^ W)
    (hb : b < 2 ^ W) (hcf : cf = 0 ∨ cf = 1) :
    (__addc_cc W cf a b).1 = (a + b + cf) % 2 ^ W ∧
    (__addc_cc W cf a b).2 = (if 2 ^ W ≤ a + b + cf then 1 else 0) ∧
    (__addc_cc W cf a b).1 + 2 ^ W * (__addc_cc W cf a b).2 = a + b + cf := by
  obtain ⟨h1, h2, h3⟩ := addc_cc_step W cf a b (width_pos W hW) ha hb (by omega)
  exact ⟨(nat_mod_of_carry _ _ _ _ h1 h2).symm, flag_of_carry _ _ _ _ h1 h2 h3, h1⟩

theorem addc_cc_correct_witness :
    __addc_cc 32 1 0xFFFFFFFF 0 = (0, 1) ∧
    ltFlag (uadd 32 0xFFFFFFFF 0) 0xFFFFFFFF = 0 ∧
    (__addc_cc 32 1 0xFFFFFFFF 0).1 + 2 ^ 32 * (__addc_cc 32 1 0xFFFFFFFF 0).2
      = 0xFFFFFFFF + 0 + 1 :=
  ⟨by decide, by decide,
   (addc_cc_correct 32 0xFFFFFFFF 0 1 (Or.inl rfl) (by decide) (by decide)
      (Or.inr rfl)).2.2⟩

/-- C4: for limbs `a`, `b` and `borrow_in ∈ {0, 1}`, `__subc_cc` yields
`diff = (a - b - borrow_in) mod 2 ^ W` and
`borrow_out = (a < b) | (t < borrow_in)` with `t = (a - b) mod 2 ^ W`; this
borrow is 1 iff `a < b + borrow_in` (0 otherwise); equivalently
`diff = a - b - borrow_in + 2 ^ W * borrow_out` over the integers. -/
theorem subc_cc_correct (W a b cf : Nat) (hW : W = 32 ∨ W = 64) (ha : a < 2 ^ W)
    (hb : b < 2 ^ W) (hcf : cf = 0 ∨ cf = 1) :
    ((__subc_cc W cf a b).1 : Int)
      = ((a : Int) - (b : Int) - (cf : Int)) % ((2 ^ W : Nat) : Int) ∧
    (__subc_cc W cf a b).2 = (ltFlag a b ||| ltFlag (usub W a b) cf) ∧
    ((usub W a b : Nat) : Int) = ((a : Int) - (b : Int)) % ((2 ^ W : Nat) : Int) ∧
    (__subc_cc W cf a b).2 = (if a < b + cf then 1 else 0) ∧
    ((__subc_cc W cf a b).1 : Int)
      = (a : Int) - (b : Int) - (cf : Int)
          + ((2 ^ W : Nat) : Int) * ((__subc_cc W cf a b).2 : Int) := by
  obtain ⟨h1, h2, h3⟩ := subc_cc_step W cf a b (width_pos W hW) ha hb (by omega)
  have hI : ((__subc_cc W cf a b).1 : Int) =
      (a : Int) - (b : Int) - (cf : Int)
        + ((2 ^ W : Nat) : Int) * ((__subc_cc W cf a b).2 : Int) := by
    have := congrArg (fun n : Nat => (n : Int)) h1
    simp only [Nat.cast_add, Nat.cast_mul] at this
    linarith
  refine ⟨?_, rfl, ?_, ?_, hI⟩
  · symm
    apply int_emod_of_borrow _ _ _ (__subc_cc W cf a b).2 _ h2
    rw [hI]; ring
  · symm
    rcases usub_cases W a b ha hb with ⟨_, e⟩ | ⟨_, e⟩
    · apply int_emod_of_borrow _ _ _ 0 _ (usub_lt W a b)
      have := congrArg (fun n : Nat => (n : Int)) e
      simp only [Nat.cast_add] at this
      simp; linarith
    · apply int_emod_of_borrow _ _ _ 1 _ (usub_lt W a b)
      have := congrArg (fun n : Nat => (n : Int)) e
      simp only [Nat.cast_add] at this
      simp; linarith
  · exact flag_of_borrow a (b + cf) _ _ _ (by rw [← h1]; ring) h2 h3

theorem subc_cc_correct_witness :
    __subc_cc 32 1 5 5 = (0xFFFFFFFF, 1) ∧
    (__subc_cc 32 1 5 5).2 = (if 5 < 5 + 1 then 1 else 0) :=
  ⟨by decide,
   (subc_cc_correct 32 5 5 1 (Or.inl rfl) (by decide) (by decide) (Or.inr rfl)).2.2.2.1⟩

/-- C5: for limbs `a`, `b`, `__add_cc` yields `sum = (a + b) mod 2 ^ W` and sets
the flag to 1 iff `a + b ≥ 2 ^ W` (0 otherwise), whatever flag `cf` was held
before. -/
theorem add_cc_correct (W a b cf : Nat) (hW : W = 32 ∨ W = 64) (ha : a < 2 ^ W)
    (hb : b < 2 ^ W) :
    (__add_cc W cf a b).1 = (a + b) % 2 ^ W ∧
    (__add_cc W cf a b).2 = (if 2 ^ W ≤ a + b then 1 else 0) := by
  have _ := hW
  obtain ⟨h1, h2, h3⟩ := add_cc_step W cf a b ha hb
  exact ⟨(nat_mod_of_carry _ _ _ _ h1 h2).symm, flag_of_carry _ _ _ _ h1 h2 h3⟩

theorem add_cc_correct_witness :
    __add_cc 64 7 0xFFFFFFFFFFFFFFFF 2 = (1, 1) ∧
    (__add_cc 64 7 0xFFFFFFFFFFFFFFFF 2).2
      = (if 2 ^ 64 ≤ 0xFFFFFFFFFFFFFFFF + 2 then 1 else 0) :=
  ⟨by decide,
   (add_cc_correct 64 0xFFFFFFFFFFFFFFFF 2 7 (Or.inr rfl) (by decide) (by decide)).2⟩

/-- C6: for limbs `a`, `b`, `__sub_cc` yields `diff = (a - b) mod 2 ^ W` and sets
the flag to 1 iff `a < b` (0 otherwise), whatever flag `cf` was held before. -/
theorem sub_cc_correct (W a b cf : Nat) (hW : W = 32 ∨ W = 64) (ha : a < 2 ^ W)
    (hb : b < 2 ^ W) :
    ((__sub_cc W cf a b).1 : Int) = ((a : Int) - (b : Int)) % ((2 ^ W : Nat) : Int) ∧
    (__sub_cc W cf a b).2 = (if a < b then 1 else 0) := by
  have _ := hW
  obtain ⟨h1, h2, h3⟩ := sub_cc_step W cf a b ha hb
  refine ⟨?_, flag_of_borrow _ _ _ _ _ h1 h2 h3⟩
  symm
  apply int_emod_of_borrow _ _ _ (__sub_cc W cf a b).2 _ h2
  have := congrArg (fun n : Nat => (n : Int)) h1
  simp only [Nat.cast_add, Nat.cast_mul] at this
  linarith

theorem sub_cc_correct_witness :
    __sub_cc 32 9 3 5 = (0xFFFFFFFE, 1) ∧
    ((__sub_cc 32 9 3 5).1 : Int) = ((3 : Int) - (5 : Int)) % ((2 ^ 32 : Nat) : Int) :=
  ⟨by decide,
   (sub_cc_correct 32 3 5 9 (Or.inl rfl) (by decide) (by decide)).1⟩


/-- Splitting a double-width product: with `a, b < 2 ^ W` the product fits
`2 * W` bits, and its high and low halves recompose it. -/
theorem mul_split (W a b : Nat) (ha : a < 2 ^ W) (hb : b < 2 ^ W) :
    a * b < 2 ^ (2 * W) ∧ a * b / 2 ^ W < 2 ^ W ∧
    a * b / 2 ^ W * 2 ^ W + a * b % 2 ^ W = a * b := by
  have hp : a * b < 2 ^ W * 2 ^ W := Nat.mul_lt_mul'' ha hb
  have e : 2 ^ (2 * W) = 2 ^ W * 2 ^ W := by rw [two_mul, Nat.pow_add]
  refine ⟨by rw [e]; exact hp, ?_, ?_⟩
  · exact Nat.div_lt_of_lt_mul hp
  · rw [Nat.mul_comm]; exact Nat.div_add_mod _ _

/-- C7: for both limb widths and all limbs `a`, `b`, the results `lo` of
`__mul_lo` and `hi` of `__mul_hi` satisfy `hi * 2 ^ W + lo = a * b` exactly,
with `lo < 2 ^ W` and `hi < 2 ^ W`. -/
theorem mul_lo_hi_exact (a b : Nat) :
    (a < 2 ^ 32 → b < 2 ^ 32 →
      Limb32.__mul_hi a b * 2 ^ 32 + Limb32.__mul_lo a b = a * b ∧
      Limb32.__mul_lo a b < 2 ^ 32 ∧ Limb32.__mul_hi a b < 2 ^ 32) ∧
    (a < 2 ^ 64 → b < 2 ^ 64 →
      Limb64.__mul_hi a b * 2 ^ 64 + Limb64.__mul_lo a b = a * b ∧
      Limb64.__mul_lo a b < 2 ^ 64 ∧ Limb64.__mul_hi a b < 2 ^ 64) := by
  constructor
  · intro ha hb
    obtain ⟨h1, h2, h3⟩ := mul_split 32 a b ha hb
    have ha' : a < 2 ^ 64 := by omega
    have hb' : b < 2 ^ 64 := by omega
    have lo : Limb32.__mul_lo a b = a * b % 2 ^ 32 := by
      simp only [Limb32.__mul_lo, ucast, umul, Nat.mod_eq_of_lt ha, Nat.mod_eq_of_lt hb,
        Nat.mod_mod]
    have hi : Limb32.__mul_hi a b = a * b / 2 ^ 32 := by
      simp only [Limb32.__mul_hi, ucast, umul, Nat.mod_eq_of_lt ha, Nat.mod_eq_of_lt hb,
        Nat.mod_eq_of_lt ha', Nat.mod_eq_of_lt hb', Nat.shiftRight_eq_div_pow]
      rw [Nat.mod_eq_of_lt (a := a * b) h1, Nat.mod_eq_of_lt h2]
    rw [lo, hi]
    exact ⟨h3, Nat.mod_lt _ (two_pow_pos 32), h2⟩
  · intro ha hb
    obtain ⟨h1, h2, h3⟩ := mul_split 64 a b ha hb
    have ha' : a < 2 ^ 128 := by omega
    have hb' : b < 2 ^ 128 := by omega
    have lo : Limb64.__mul_lo a b = a * b % 2 ^ 64 := by
      simp only [Limb64.__mul_lo, ucast, umul, Nat.mod_eq_of_lt ha, Nat.mod_eq_of_lt hb,
        Nat.mod_mod]
    have hi : Limb64.__mul_hi a b = a * b / 2 ^ 64 := by
      simp only [Limb64.__mul_hi, ucast, umul, Nat.mod_eq_of_lt ha, Nat.mod_eq_of_lt hb,
        Nat.mod_eq_of_lt ha', Nat.mod_eq_of_lt hb', Nat.shiftRight_eq_div_pow]
      rw [Nat.mod_eq_of_lt (a := a * b) h1, Nat.mod_eq_of_lt h2]
    rw [lo, hi]
    exact ⟨h3, Nat.mod_lt _ (two_pow_pos 64), h2⟩

theorem mul_lo_hi_exact_witness :
    Limb32.__mul_lo 0xFFFFFFFF 2 = 0xFFFFFFFE ∧ Limb32.__mul_hi 0xFFFFFFFF 2 = 1 ∧
    Limb32.__mul_hi 0xFFFFFFFF 2 * 2 ^ 32 + Limb32.__mul_lo 0xFFFFFFFF 2 = 0xFFFFFFFF * 2 ∧
    Limb64.__mul_hi 0xFFFFFFFFFFFFFFFF 3 * 2 ^ 64 + Limb64.__mul_lo 0xFFFFFFFFFFFFFFFF 3
      = 0xFFFFFFFFFFFFFFFF * 3 :=
  ⟨by decide, by decide,
   ((mul_lo_hi_exact 0xFFFFFFFF 2).1 (by decide) (by decide)).1,
   ((mul_lo_hi_exact 0xFFFFFFFFFFFFFFFF 3).2 (by decide) (by decide)).1⟩

theorem S_IDX_inj (N : Nat) (e k e' k' : Nat) (he : e < N) (he' : e' < N)
    (h : _S_IDX N e k = _S_IDX N e' k') : e = e' ∧ k = k' := by
  unfold _S_IDX at h
  have hN : 0 < N := by omega
  have m := congrArg (fun x => x % N) h
  have d := congrArg (fun x => x / N) h
  simp only [Nat.add_mul_mod_self_left, Nat.mod_eq_of_lt he, Nat.mod_eq_of_lt he'] at m
  simp only [Nat.add_mul_div_left _ _ hN, Nat.div_eq_of_lt he, Nat.div_eq_of_lt he',
    Nat.zero_add] at d
  exact ⟨m, d⟩

theorem S_IDX_lt (N L : Nat) (e k : Nat) (he : e < N) (hk : k < L) :
    _S_IDX N e k < N * L := by
  unfold _S_IDX
  have : N * (k + 1) ≤ N * L := Nat.mul_le_mul_left _ hk
  rw [Nat.mul_add, Nat.mul_one] at this
  omega

/-- C10: for `N ≥ 1` and `L ≥ 1`, `_S_IDX(e, k) = e + N * k` restricted to
`e < N`, `k < L` lands in `[0, N * L)` and is injective, every offset below
`N * L` is hit by exactly one pair, and a write to one (element, limb) slot
leaves every other slot, in particular every limb of another element,
unchanged. -/
theorem S_IDX_layout (N L : Nat) (hN : 1 ≤ N) (hL : 1 ≤ L) :
    (∀ e k, e < N → k < L → _S_IDX N e k < N * L) ∧
    (∀ e k e' k', e < N → k < L → e' < N → k' < L →
      _S_IDX N e k = _S_IDX N e' k' → e = e' ∧ k = k') ∧
    (∀ o, o < N * L → ∃! p : Nat × Nat, p.1 < N ∧ p.2 < L ∧ _S_IDX N p.1 p.2 = o) ∧
    (∀ (buf : List Nat) (e k v e' k' : Nat), buf.length = N * L →
      e < N → k < L → e' < N → k' < L → (e, k) ≠ (e', k') →
      strided_read N (strided_write N buf e k v) e' k' = strided_read N buf e' k') ∧
    (∀ (buf : List Nat) (e k v : Nat), buf.length = N * L → e < N → k < L →
      strided_read N (strided_write N buf e k v) e k = some v) := by
  have _ := hL
  refine ⟨fun e k he hk => S_IDX_lt N L e k he hk, ?_, ?_, ?_, ?_⟩
  · intro e k e' k' he _ he' _ h
    exact S_IDX_inj N e k e' k' he he' h
  · intro o ho
    have hpos : 0 < N := hN
    refine ⟨(o % N, o / N), ⟨Nat.mod_lt _ hpos, ?_, ?_⟩, ?_⟩
    · exact Nat.div_lt_of_lt_mul ho
    · simp only [_S_IDX]; exact Nat.mod_add_div o N
    · rintro ⟨e, k⟩ ⟨he, _, h⟩
      have h0 : _S_IDX N e k = _S_IDX N (o % N) (o / N) := by
        rw [h]; simp only [_S_IDX]; exact (Nat.mod_add_div o N).symm
      obtain ⟨h1, h2⟩ := S_IDX_inj N e k (o % N) (o / N) he (Nat.mod_lt _ hpos) h0
      simp only [h1, h2]
  · intro buf e k v e' k' _ he _ he' _ hne
    have hidx : _S_IDX N e k ≠ _S_IDX N e' k' := by
      intro h
      obtain ⟨h1, h2⟩ := S_IDX_inj N e k e' k' he he' h
      exact hne (by rw [h1, h2])
    simp only [strided_read, strided_write]
    exact List.getElem?_set_ne hidx
  · intro buf e k v hlen he hk
    have hlt : _S_IDX N e k < buf.length := by rw [hlen]; exact S_IDX_lt N L e k he hk
    simp only [strided_read, strided_write]
    exact List.getElem?_set_self hlt

theorem S_IDX_layout_witness :
    _S_IDX 4 3 1 = 7 ∧
    strided_read 4 (strided_write 4 [0, 1, 2, 3, 4, 5, 6, 7] 3 1 99) 2 1 = some 6 ∧
    strided_read 4 (strided_write 4 [0, 1, 2, 3, 4, 5, 6, 7] 3 1 99) 2 1
      = strided_read 4 [0, 1, 2, 3, 4, 5, 6, 7] 2 1 :=
  ⟨by decide, by decide,
   (S_IDX_layout 4 2 (by decide) (by decide)).2.2.2.1 [0, 1, 2, 3, 4, 5, 6, 7] 3 1 99 2 1
     rfl (by decide) (by decide) (by decide) (by decide) (by decide)⟩


/-- A multiple of `2 ^ s` reduced to `s + t` bits, or-ed with a value below
`2 ^ s`, is their sum reduced to `s + t` bits. -/
theorem lor_window (u v s t : Nat) (hv : v < 2 ^ s) :
    ((u * 2 ^ s) % 2 ^ (s + t)) ||| v = (u * 2 ^ s + v) % 2 ^ (s + t) := by
  have e : 2 ^ (s + t) = 2 ^ t * 2 ^ s := by rw [Nat.pow_add, Nat.mul_comm]
  have hu : u * 2 ^ s = 2 ^ t * 2 ^ s * (u / 2 ^ t) + (u % 2 ^ t) * 2 ^ s := by
    conv_lhs => rw [← Nat.div_add_mod u (2 ^ t)]
    ring
  have hlt : (u % 2 ^ t) * 2 ^ s + v < 2 ^ t * 2 ^ s := by
    have h1 : u % 2 ^ t + 1 ≤ 2 ^ t := Nat.mod_lt _ (two_pow_pos t)
    have h2 : (u % 2 ^ t + 1) * 2 ^ s ≤ 2 ^ t * 2 ^ s := Nat.mul_le_mul_right _ h1
    rw [Nat.add_mul, Nat.one_mul] at h2
    omega
  rw [e, Nat.mul_mod_mul_right, Nat.mul_comm (u % 2 ^ t) (2 ^ s),
    ← Nat.mul_add_lt_is_or hv, Nat.mul_comm (2 ^ s) (u % 2 ^ t)]
  conv_rhs => rw [hu, Nat.add_assoc, Nat.mul_add_mod, Nat.mod_eq_of_lt hlt]

theorem shr32_some (x n : Nat) (h : n < 32) : Limb32.shr32 x n = some (x / 2 ^ n) := by
  simp [Limb32.shr32, h, Nat.shiftRight_eq_div_pow]

theorem shl32_some (x n : Nat) (h : n < 32) :
    Limb32.shl32 x n = some ((x * 2 ^ n) % 2 ^ 32) := by
  simp [Limb32.shl32, h, Nat.shiftLeft_eq]

/-- For every amount from 1 to 63 `__shf_r_clamp` is defined and yields the low
32 bits of `(high:low) >> amount`. -/
theorem shf_r_clamp_window (low high amount : Nat) (hl : low < 2 ^ 32)
    (hh : high < 2 ^ 32) (h0 : 0 < amount) (h64 : amount < 64) :
    Limb32.__shf_r_clamp low high amount
      = some (((high * 2 ^ 32 + low) / 2 ^ amount) % 2 ^ 32) := by
  have hc : amount % 2 ^ 32 = amount := Nat.mod_eq_of_lt (by omega)
  simp only [Limb32.__shf_r_clamp, hc, ucast, Nat.mod_eq_of_lt hl, Nat.mod_eq_of_lt hh]
  by_cases h : amount ≥ 32
  · rw [if_pos h]
    obtain ⟨k, rfl⟩ : ∃ k, amount = 32 + k := ⟨amount - 32, by omega⟩
    have hk : usub 32 (32 + k) 32 = k := by
      unfold usub; norm_num; omega
    rw [hk, shr32_some high k (by omega)]
    have e : (high * 2 ^ 32 + low) / 2 ^ (32 + k) = high / 2 ^ k := by
      rw [Nat.pow_add, ← Nat.div_div_eq_div_mul, Nat.add_comm,
        Nat.add_mul_div_right _ _ (two_pow_pos 32), Nat.div_eq_of_lt hl, Nat.zero_add]
    rw [e, Nat.mod_eq_of_lt (lt_of_le_of_lt (Nat.div_le_self _ _) hh)]
  · rw [if_neg h]
    obtain ⟨k, hk⟩ : ∃ k, 32 = k + amount := ⟨32 - amount, by omega⟩
    have hs : usub 32 32 amount = k := by
      unfold usub; norm_num; omega
    rw [hs, shr32_some low amount (by omega), shl32_some high k (by omega)]
    simp only
    have hx : low / 2 ^ amount < 2 ^ k := by
      apply Nat.div_lt_of_lt_mul
      rw [← Nat.pow_add, Nat.add_comm, ← hk]; exact hl
    have e : (high * 2 ^ 32 + low) / 2 ^ amount = high * 2 ^ k + low / 2 ^ amount := by
      have : high * 2 ^ 32 = high * 2 ^ k * 2 ^ amount := by
        rw [Nat.mul_assoc, ← Nat.pow_add, ← hk]
      rw [this, Nat.add_comm, Nat.add_mul_div_right _ _ (two_pow_pos amount), Nat.add_comm]
    have w := lor_window high (low / 2 ^ amount) k amount hx
    rw [← hk] at w
    rw [e, ← w, Nat.lor_comm]

/-- For every amount from 1 to 63 `__shf_l_clamp` is defined and yields the high
32 bits of the 64-bit value `((high:low) << amount) mod 2 ^ 64`. -/
theorem shf_l_clamp_window (low high amount : Nat) (hl : low < 2 ^ 32)
    (hh : high < 2 ^ 32) (h0 : 0 < amount) (h64 : amount < 64) :
    Limb32.__shf_l_clamp low high amount
      = some ((((high * 2 ^ 32 + low) * 2 ^ amount) % 2 ^ 64) / 2 ^ 32) := by
  have hc : amount % 2 ^ 32 = amount := Nat.mod_eq_of_lt (by omega)
  have e64 : (2 : Nat) ^ 64 = 2 ^ 32 * 2 ^ 32 := by norm_num
  simp only [Limb32.__shf_l_clamp, hc, ucast, Nat.mod_eq_of_lt hl, Nat.mod_eq_of_lt hh]
  rw [e64, Nat.mod_mul_left_div_self]
  by_cases h : amount ≥ 32
  · rw [if_pos h]
    obtain ⟨k, rfl⟩ : ∃ k, amount = 32 + k := ⟨amount - 32, by omega⟩
    have hk : usub 32 (32 + k) 32 = k := by
      unfold usub; norm_num; omega
    rw [hk, shl32_some low k (by omega)]
    have e : (high * 2 ^ 32 + low) * 2 ^ (32 + k) / 2 ^ 32
        = low * 2 ^ k + 2 ^ 32 * (high * 2 ^ k) := by
      have : (high * 2 ^ 32 + low) * 2 ^ (32 + k)
          = (low * 2 ^ k + 2 ^ 32 * (high * 2 ^ k)) * 2 ^ 32 := by
        rw [Nat.pow_add]; ring
      rw [this, Nat.mul_div_cancel _ (two_pow_pos 32)]
    rw [e, Nat.add_mul_mod_self_left]
  · rw [if_neg h]
    obtain ⟨k, hk⟩ : ∃ k, 32 = amount + k := ⟨32 - amount, by omega⟩
    have hs : usub 32 32 amount = k := by
      unfold usub; norm_num; omega
    rw [hs, shl32_some high amount (by omega), shr32_some low k (by omega)]
    simp only
    have hy : low / 2 ^ k < 2 ^ amount := by
      apply Nat.div_lt_of_lt_mul
      rw [← Nat.pow_add, Nat.add_comm, ← hk]; exact hl
    have hrho : (low % 2 ^ k) * 2 ^ amount < 2 ^ 32 := by
      have h1 : low % 2 ^ k < 2 ^ k := Nat.mod_lt _ (two_pow_pos k)
      have h2 : (low % 2 ^ k) * 2 ^ amount < 2 ^ k * 2 ^ amount :=
        Nat.mul_lt_mul_of_pos_right h1 (two_pow_pos amount)
      rwa [← Nat.pow_add, Nat.add_comm, ← hk] at h2
    have e : (high * 2 ^ 32 + low) * 2 ^ amount / 2 ^ 32
        = high * 2 ^ amount + low / 2 ^ k := by
      have h32 : (2 : Nat) ^ 32 = 2 ^ k * 2 ^ amount := by
        rw [← Nat.pow_add, Nat.add_comm, ← hk]
      have : (high * 2 ^ 32 + low) * 2 ^ amount
          = (low % 2 ^ k) * 2 ^ amount + (high * 2 ^ amount + low / 2 ^ k) * 2 ^ 32 := by
        conv_lhs => rw [← Nat.div_add_mod low (2 ^ k)]
        rw [h32]; ring
      rw [this, Nat.add_mul_div_right _ _ (two_pow_pos 32), Nat.div_eq_of_lt hrho,
        Nat.zero_add]
    have w := lor_window high (low / 2 ^ k) amount k hy
    rw [← hk] at w
    rw [e, ← w]


/-- C8, at amount 0 with low = 0 and high = 1: the else branch of
`__shf_r_clamp` evaluates `(uint32_t)(b) << (32 - 0)`, a shift by the full
operand width, which has no defined result, so the macro does not deliver the
claimed `r = low = 0`; on a shifter that takes the count modulo 32 the body
yields `low | high = 1`. -/
theorem shf_r_clamp_amount_zero :
    Limb32.__shf_r_clamp 0 1 0 = none ∧
    Limb32.__shf_r_clamp 0 1 0 ≠ some (((1 * 2 ^ 32 + 0) / 2 ^ 0) % 2 ^ 32) ∧
    Limb32.__shf_r_clamp_masked 0 1 0 = 1 ∧
    ((1 * 2 ^ 32 + 0) / 2 ^ 0) % 2 ^ 32 = 0 := by
  decide

/-- C9, at amount 0 with low = 1 and high = 0: the else branch of
`__shf_l_clamp` evaluates `(uint32_t)(a) >> (32 - 0)`, a shift by the full
operand width, which has no defined result, so the macro does not deliver the
claimed `r = high = 0`; on a shifter that takes the count modulo 32 the body
yields `high | low = 1`. -/
theorem shf_l_clamp_amount_zero :
    Limb32.__shf_l_clamp 1 0 0 = none ∧
    Limb32.__shf_l_clamp 1 0 0 ≠ some ((((0 * 2 ^ 32 + 1) * 2 ^ 0) % 2 ^ 64) / 2 ^ 32) ∧
    Limb32.__shf_l_clamp_masked 1 0 0 = 1 ∧
    (((0 * 2 ^ 32 + 1) * 2 ^ 0) % 2 ^ 64) / 2 ^ 32 = 0 := by
  decide

/-- At amount 0 neither funnel shift has a defined result, whatever the
operands. -/
theorem shf_clamp_zero_undefined (low high : Nat) :
    Limb32.__shf_r_clamp low high 0 = none ∧ Limb32.__shf_l_clamp low high 0 = none := by
  simp [Limb32.__shf_r_clamp, Limb32.__shf_l_clamp, Limb32.shl32, Limb32.shr32, ucast, usub]

/-- With a count-masking shifter the funnel shifts at amount 0 return
`low | high`. -/
theorem shf_clamp_masked_zero (low high : Nat) (hl : low < 2 ^ 32) (hh : high < 2 ^ 32) :
    Limb32.__shf_r_clamp_masked low high 0 = low ||| high ∧
    Limb32.__shf_l_clamp_masked low high 0 = high ||| low := by
  have hl' : low % 4294967296 = low := Nat.mod_eq_of_lt hl
  have hh' : high % 4294967296 = high := Nat.mod_eq_of_lt hh
  simp [Limb32.__shf_r_clamp_masked, Limb32.__shf_l_clamp_masked, Limb32.shl32_masked,
    Limb32.shr32_masked, ucast, usub, hl', hh']


theorem shf_r_clamp_window_witness :
    Limb32.__shf_r_clamp 0x12345678 0x9ABCDEF0 4 = some 0x01234567 ∧
    Limb32.__shf_r_clamp 0x12345678 0x9ABCDEF0 32
      = some (((0x9ABCDEF0 * 2 ^ 32 + 0x12345678) / 2 ^ 32) % 2 ^ 32) :=
  ⟨by decide,
   shf_r_clamp_window 0x12345678 0x9ABCDEF0 32 (by decide) (by decide) (by decide)
     (by decide)⟩

theorem shf_l_clamp_window_witness :
    Limb32.__shf_l_clamp 0x12345678 0x9ABCDEF0 4 = some 0xABCDEF01 ∧
    Limb32.__shf_l_clamp 0x12345678 0x9ABCDEF0 32
      = some ((((0x9ABCDEF0 * 2 ^ 32 + 0x12345678) * 2 ^ 32) % 2 ^ 64) / 2 ^ 32) :=
  ⟨by decide,
   shf_l_clamp_window 0x12345678 0x9ABCDEF0 32 (by decide) (by decide) (by decide)
     (by decide)⟩


/-! ## Multiply-add macros -/

theorem ucast_of_lt (W x : Nat) (h : x < 2 ^ W) : ucast W x = x := Nat.mod_eq_of_lt h

theorem ucast_lt (W x : Nat) : ucast W x < 2 ^ W := Nat.mod_lt _ (two_pow_pos W)

theorem pow_lt_pow_width {W D : Nat} (h : W ≤ D) {x : Nat} (hx : x < 2 ^ W) : x < 2 ^ D :=
  lt_of_lt_of_le hx (Nat.pow_le_pow_right (by decide) h)

/-- The low product word, for limbs `a`, `b`. -/
theorem mul_lo_val (W a b : Nat) (hW : W = 32 ∨ W = 64) (ha : a < 2 ^ W) (hb : b < 2 ^ W) :
    __mul_lo W a b = a * b % 2 ^ W := by
  rcases hW with rfl | rfl
  · simp only [__mul_lo, if_pos, Limb32.__mul_lo, ucast, umul, Nat.mod_eq_of_lt ha,
      Nat.mod_eq_of_lt hb, Nat.mod_mod]
  · simp only [__mul_lo, Limb64.__mul_lo, ucast, umul, Nat.mod_eq_of_lt ha,
      Nat.mod_eq_of_lt hb, Nat.mod_mod]
    rfl

/-- The high product word, for limbs `a`, `b`. -/
theorem mul_hi_val (W a b : Nat) (hW : W = 32 ∨ W = 64) (ha : a < 2 ^ W) (hb : b < 2 ^ W) :
    __mul_hi W a b = a * b / 2 ^ W := by
  obtain ⟨h1, h2, _⟩ := mul_split W a b ha hb
  rcases hW with rfl | rfl
  · have ha' : a < 2 ^ 64 := pow_lt_pow_width (by decide) ha
    have hb' : b < 2 ^ 64 := pow_lt_pow_width (by decide) hb
    simp only [__mul_hi, if_pos, Limb32.__mul_hi, ucast, umul, Nat.mod_eq_of_lt ha,
      Nat.mod_eq_of_lt hb, Nat.mod_eq_of_lt ha', Nat.mod_eq_of_lt hb',
      Nat.shiftRight_eq_div_pow]
    rw [Nat.mod_eq_of_lt (a := a * b) h1, Nat.mod_eq_of_lt h2]
  · have ha' : a < 2 ^ 128 := pow_lt_pow_width (by decide) ha
    have hb' : b < 2 ^ 128 := pow_lt_pow_width (by decide) hb
    have e : __mul_hi 64 a b = Limb64.__mul_hi a b := rfl
    rw [e]
    simp only [Limb64.__mul_hi, ucast, umul, Nat.mod_eq_of_lt ha,
      Nat.mod_eq_of_lt hb, Nat.mod_eq_of_lt ha', Nat.mod_eq_of_lt hb',
      Nat.shiftRight_eq_div_pow]
    rw [Nat.mod_eq_of_lt (a := a * b) h1, Nat.mod_eq_of_lt h2]

theorem mul_lo_lt (W a b : Nat) (hW : W = 32 ∨ W = 64) : __mul_lo W a b < 2 ^ W := by
  rcases hW with rfl | rfl
  · exact ucast_lt 32 _
  · exact ucast_lt 64 _

theorem mul_hi_lt (W a b : Nat) (hW : W = 32 ∨ W = 64) : __mul_hi W a b < 2 ^ W := by
  rcases hW with rfl | rfl
  · exact ucast_lt 32 _
  · exact ucast_lt 64 _

/-- `__madc_lo_cc` has the body of `__addc_cc` run on the low product word. -/
theorem madc_lo_cc_eq (W cf a b c : Nat) (hW : W = 32 ∨ W = 64) :
    __madc_lo_cc W cf a b c = __addc_cc W cf (__mul_lo W a b) (ucast W c) := by
  rcases hW with rfl | rfl <;> rfl

/-- `__mad_lo_cc` has the body of `__add_cc` run on the low product word. -/
theorem mad_lo_cc_eq (W cf a b c : Nat) (hW : W = 32 ∨ W = 64) :
    __mad_lo_cc W cf a b c = __add_cc W cf (__mul_lo W a b) (ucast W c) := by
  rcases hW with rfl | rfl <;> rfl

/-- `__mad_hi_cc` has the body of `__add_cc` run on the high product word. -/
theorem mad_hi_cc_eq (W cf a b c : Nat) (hW : W = 32 ∨ W = 64) :
    __mad_hi_cc W cf a b c = __add_cc W cf (__mul_hi W a b) (ucast W c) := by
  rcases hW with rfl | rfl <;> rfl

/-- `__madc_hi` adds the addend and the flag to the high product word, wrapping,
and keeps the flag. -/
theorem madc_hi_eq (W cf a b c : Nat) (hW : W = 32 ∨ W = 64) :
    __madc_hi W cf a b c = (uadd W (uadd W (__mul_hi W a b) (ucast W c)) cf, cf) := by
  rcases hW with rfl | rfl <;> rfl

/-- The widened sum of `__madc_hi_cc` does not wrap: in a type of `D > W` bits,
`hi + c + flag` with `W`-bit `hi`, `c` and a one-bit flag is exact. -/
theorem widened_sum (W D hi c cf : Nat) (hD : W < D) (hhi : hi < 2 ^ W) (hcf : cf ≤ 1) :
    uadd D (uadd D (ucast D hi) (ucast D (ucast W c))) (ucast D cf)
      = hi + ucast W c + cf := by
  have hc := ucast_lt W c
  have hP : 2 ^ W * 2 ≤ 2 ^ D := by
    rw [← Nat.pow_succ]; exact Nat.pow_le_pow_right (by decide) hD
  have h1 : 1 ≤ 2 ^ W := two_pow_pos W
  generalize ucast W c = c' at *
  simp only [uadd, ucast]
  rw [Nat.mod_eq_of_lt (a := hi) (by omega), Nat.mod_eq_of_lt (a := c') (by omega),
    Nat.mod_eq_of_lt (a := cf) (by omega), Nat.mod_eq_of_lt (a := hi + c') (by omega),
    Nat.mod_eq_of_lt (by omega)]

/-- `__madc_hi_cc`: result and flag are the low word and the carry of the exact
sum `hi + c + flag`. -/
theorem madc_hi_cc_val (W cf a b c : Nat) (hW : W = 32 ∨ W = 64) (hcf : cf ≤ 1) :
    __madc_hi_cc W cf a b c
      = ((__mul_hi W a b + ucast W c + cf) % 2 ^ W,
         (__mul_hi W a b + ucast W c + cf) / 2 ^ W) := by
  have hlt := mul_hi_lt W a b hW
  have hc := ucast_lt W c
  have hdiv : (__mul_hi W a b + ucast W c + cf) / 2 ^ W < 2 ^ W := by
    apply Nat.div_lt_of_lt_mul
    have := two_le_two_pow W (width_pos W hW)
    nlinarith
  rcases hW with rfl | rfl
  · have e : __madc_hi_cc 32 cf a b c
        = (ucast 32 (uadd 64 (uadd 64 (ucast 64 (__mul_hi 32 a b))
              (ucast 64 (ucast 32 c))) (ucast 64 cf)),
           ucast 32 (uadd 64 (uadd 64 (ucast 64 (__mul_hi 32 a b))
              (ucast 64 (ucast 32 c))) (ucast 64 cf) >>> 32)) := rfl
    rw [e, widened_sum 32 64 _ c cf (by decide) hlt hcf, Nat.shiftRight_eq_div_pow]
    simp only [ucast_of_lt 32 _ hdiv]
    rfl
  · have e : __madc_hi_cc 64 cf a b c
        = (ucast 64 (uadd 128 (uadd 128 (ucast 128 (__mul_hi 64 a b))
              (ucast 128 (ucast 64 c))) (ucast 128 cf)),
           ucast 64 (uadd 128 (uadd 128 (ucast 128 (__mul_hi 64 a b))
              (ucast 128 (ucast 64 c))) (ucast 128 cf) >>> 64)) := rfl
    rw [e, widened_sum 64 128 _ c cf (by decide) hlt hcf, Nat.shiftRight_eq_div_pow]
    simp only [ucast_of_lt 64 _ hdiv]
    rfl


/-- C14: for both limb widths, all limbs `a`, `b`, `c` and `carry_in ∈ {0, 1}`,
`__madc_lo_cc` yields a limb `r` and a flag with
`r + 2 ^ W * carry_out = ((a * b) mod 2 ^ W) + c + carry_in` and
`carry_out ∈ {0, 1}`. -/
theorem madc_lo_cc_exact (W a b c cf : Nat) (hW : W = 32 ∨ W = 64) (ha : a < 2 ^ W)
    (hb : b < 2 ^ W) (hc : c < 2 ^ W) (hcf : cf = 0 ∨ cf = 1) :
    (__madc_lo_cc W cf a b c).1 + 2 ^ W * (__madc_lo_cc W cf a b c).2
      = a * b % 2 ^ W + c + cf ∧
    ((__madc_lo_cc W cf a b c).2 = 0 ∨ (__madc_lo_cc W cf a b c).2 = 1) ∧
    (__madc_lo_cc W cf a b c).1 < 2 ^ W := by
  rw [madc_lo_cc_eq W cf a b c hW, ucast_of_lt W c hc]
  obtain ⟨h1, h2, h3⟩ := addc_cc_step W cf (__mul_lo W a b) c (width_pos W hW)
    (mul_lo_lt W a b hW) hc (by omega)
  rw [mul_lo_val W a b hW ha hb] at h1 h2 h3 ⊢
  exact ⟨h1, by omega, h2⟩

theorem madc_lo_cc_exact_witness :
    __madc_lo_cc 32 1 0xFFFFFFFF 0xFFFFFFFF 0xFFFFFFFE = (0, 1) ∧
    (__madc_lo_cc 32 1 0xFFFFFFFF 0xFFFFFFFF 0xFFFFFFFE).1
        + 2 ^ 32 * (__madc_lo_cc 32 1 0xFFFFFFFF 0xFFFFFFFF 0xFFFFFFFE).2
      = 0xFFFFFFFF * 0xFFFFFFFF % 2 ^ 32 + 0xFFFFFFFE + 1 ∧
    (__madc_lo_cc 64 1 0xFFFFFFFFFFFFFFFF 3 5).1
        + 2 ^ 64 * (__madc_lo_cc 64 1 0xFFFFFFFFFFFFFFFF 3 5).2
      = 0xFFFFFFFFFFFFFFFF * 3 % 2 ^ 64 + 5 + 1 :=
  ⟨by decide,
   (madc_lo_cc_exact 32 0xFFFFFFFF 0xFFFFFFFF 0xFFFFFFFE 1 (Or.inl rfl) (by decide)
      (by decide) (by decide) (Or.inr rfl)).1,
   (madc_lo_cc_exact 64 0xFFFFFFFFFFFFFFFF 3 5 1 (Or.inr rfl) (by decide)
      (by decide) (by decide) (Or.inr rfl)).1⟩

/-- C15: for both limb widths, all limbs `a`, `b`, `c` and `carry_in ∈ {0, 1}`,
`__madc_hi_cc` yields a limb `r` and a flag with
`r + 2 ^ W * carry_out = floor(a * b / 2 ^ W) + c + carry_in` and
`carry_out ∈ {0, 1}`. -/
theorem madc_hi_cc_exact (W a b c cf : Nat) (hW : W = 32 ∨ W = 64) (ha : a < 2 ^ W)
    (hb : b < 2 ^ W) (hc : c < 2 ^ W) (hcf : cf = 0 ∨ cf = 1) :
    (__madc_hi_cc W cf a b c).1 + 2 ^ W * (__madc_hi_cc W cf a b c).2
      = a * b / 2 ^ W + c + cf ∧
    ((__madc_hi_cc W cf a b c).2 = 0 ∨ (__madc_hi_cc W cf a b c).2 = 1) ∧
    (__madc_hi_cc W cf a b c).1 < 2 ^ W := by
  have hhi := mul_hi_lt W a b hW
  rw [madc_hi_cc_val W cf a b c hW (by omega), ucast_of_lt W c hc]
  rw [mul_hi_val W a b hW ha hb] at hhi ⊢
  have hdiv : (a * b / 2 ^ W + c + cf) / 2 ^ W < 2 := by
    apply Nat.div_lt_of_lt_mul
    omega
  refine ⟨Nat.mod_add_div _ _, ?_, Nat.mod_lt _ (two_pow_pos W)⟩
  simp only
  generalize (a * b / 2 ^ W + c + cf) / 2 ^ W = q at hdiv
  omega

theorem madc_hi_cc_exact_witness :
    __madc_hi_cc 32 1 0xFFFFFFFF 0xFFFFFFFF 0xFFFFFFFF = (0xFFFFFFFE, 1) ∧
    (__madc_hi_cc 32 1 0xFFFFFFFF 0xFFFFFFFF 0xFFFFFFFF).1
        + 2 ^ 32 * (__madc_hi_cc 32 1 0xFFFFFFFF 0xFFFFFFFF 0xFFFFFFFF).2
      = 0xFFFFFFFF * 0xFFFFFFFF / 2 ^ 32 + 0xFFFFFFFF + 1 ∧
    (__madc_hi_cc 64 1 0xFFFFFFFFFFFFFFFF 0xFFFFFFFFFFFFFFFF 7).1
        + 2 ^ 64 * (__madc_hi_cc 64 1 0xFFFFFFFFFFFFFFFF 0xFFFFFFFFFFFFFFFF 7).2
      = 0xFFFFFFFFFFFFFFFF * 0xFFFFFFFFFFFFFFFF / 2 ^ 64 + 7 + 1 :=
  ⟨by decide,
   (madc_hi_cc_exact 32 0xFFFFFFFF 0xFFFFFFFF 0xFFFFFFFF 1 (Or.inl rfl) (by decide)
      (by decide) (by decide) (Or.inr rfl)).1,
   (madc_hi_cc_exact 64 0xFFFFFFFFFFFFFFFF 0xFFFFFFFFFFFFFFFF 7 1 (Or.inr rfl) (by decide)
      (by decide) (by decide) (Or.inr rfl)).1⟩

/-- C19: for both limb widths, all `a`, `b`, every limb `c` and
`carry_in ∈ {0, 1}`, the widened-arithmetic `__madc_hi_cc(r, a, b, c)` gives the
same result and flag as `__mul_hi(h, a, b)` followed by `__addc_cc(r, h, c)`,
and `__madc_lo_cc(r, a, b, c)` the same as `__mul_lo(l, a, b)` followed by
`__addc_cc(r, l, c)`. -/
theorem madc_cc_refines (W a b c cf : Nat) (hW : W = 32 ∨ W = 64) (hc : c < 2 ^ W)
    (hcf : cf = 0 ∨ cf = 1) :
    __madc_hi_cc W cf a b c = mul_hi_addc_cc W cf a b c ∧
    __madc_lo_cc W cf a b c = mul_lo_addc_cc W cf a b c := by
  constructor
  · obtain ⟨h1, h2, _⟩ := addc_cc_step W cf (__mul_hi W a b) c (width_pos W hW)
      (mul_hi_lt W a b hW) hc (by omega)
    rw [madc_hi_cc_val W cf a b c hW (by omega), ucast_of_lt W c hc]
    unfold mul_hi_addc_cc
    apply Prod.ext
    · exact nat_mod_of_carry _ _ _ _ h1 h2
    · simp only
      rw [← h1, Nat.add_mul_div_left _ _ (two_pow_pos W), Nat.div_eq_of_lt h2, Nat.zero_add]
  · rw [madc_lo_cc_eq W cf a b c hW, ucast_of_lt W c hc]
    rfl

theorem madc_cc_refines_witness :
    __madc_hi_cc 32 1 0xFFFFFFFF 0xFFFFFFFF 0xFFFFFFFF
      = mul_hi_addc_cc 32 1 0xFFFFFFFF 0xFFFFFFFF 0xFFFFFFFF ∧
    mul_hi_addc_cc 32 1 0xFFFFFFFF 0xFFFFFFFF 0xFFFFFFFF = (0xFFFFFFFE, 1) ∧
    __madc_lo_cc 64 1 0xFFFFFFFFFFFFFFFF 3 5 = mul_lo_addc_cc 64 1 0xFFFFFFFFFFFFFFFF 3 5 :=
  ⟨(madc_cc_refines 32 0xFFFFFFFF 0xFFFFFFFF 0xFFFFFFFF 1 (Or.inl rfl) (by decide)
      (Or.inr rfl)).1,
   by decide,
   (madc_cc_refines 64 0xFFFFFFFFFFFFFFFF 3 5 1 (Or.inr rfl) (by decide) (Or.inr rfl)).2⟩


theorem int_emod_of_eq (x : Int) (r P : Nat) (k : Int)
    (h : x = (r : Int) + (P : Int) * k) (hr : r < P) : x % (P : Int) = (r : Int) := by
  rw [h, Int.add_mul_emod_self_left]
  exact Int.emod_eq_of_lt (by omega) (by exact_mod_cast hr)

/-- Wrapping subtraction differs from the integer difference by a multiple of
`2 ^ W`, for every subtrahend. -/
theorem usub_int (W x y : Nat) :
    ∃ k : Int, ((usub W x y : Nat) : Int) = (x : Int) - (y : Int) + ((2 ^ W : Nat) : Int) * k := by
  unfold usub
  have hP := two_pow_pos W
  generalize 2 ^ W = P at hP
  · have hm : y % P < P := Nat.mod_lt _ hP
    have hy := Nat.div_add_mod y P
    have hz := Nat.div_add_mod (x + (P - y % P)) P
    refine ⟨(y / P : Nat) + 1 - ((x + (P - y % P)) / P : Nat), ?_⟩
    have e1 : ((P - y % P : Nat) : Int) = (P : Int) - ((y % P : Nat) : Int) :=
      Nat.cast_sub (le_of_lt hm)
    have hy' := congrArg (fun n : Nat => (n : Int)) hy
    have hz' := congrArg (fun n : Nat => (n : Int)) hz
    simp only [Nat.cast_add, Nat.cast_mul, e1] at hy' hz'
    linear_combination hz' - hy'

/-- C17: `__addc` yields `r = (a + b + cf) mod 2 ^ W` and `__subc` yields
`r = (a - b - cf) mod 2 ^ W`, and after either one the flag still equals `cf`;
this holds for every width (in particular 32 and 64), for all operands (in
particular limbs) and every flag value. -/
theorem addc_subc_keep_flag (W a b cf : Nat) :
    (__addc W cf a b).1 = (a + b + cf) % 2 ^ W ∧
    (__addc W cf a b).2 = cf ∧
    ((__subc W cf a b).1 : Int)
      = ((a : Int) - (b : Int) - (cf : Int)) % ((2 ^ W : Nat) : Int) ∧
    (__subc W cf a b).2 = cf := by
  refine ⟨?_, rfl, ?_, rfl⟩
  · simp only [__addc, uadd, Nat.mod_add_mod]
  · simp only [__subc]
    obtain ⟨k1, h1⟩ := usub_int W a b
    obtain ⟨k2, h2⟩ := usub_int W (usub W a b) cf
    symm
    apply int_emod_of_eq _ _ _ (-(k1 + k2)) _ (usub_lt W _ _)
    rw [h2, h1]; ring

/-- The value of `__mad_lo_cc(r0, a, b, c); __madc_hi(r1, a, b, d);`: the
addend `d` enters at weight `2 ^ W` and the sum is kept modulo `2 ^ (2 * W)`. -/
theorem mad_lo_cc_madc_hi_value (W a b c d cf : Nat) (hW : W = 32 ∨ W = 64)
    (ha : a < 2 ^ W) (hb : b < 2 ^ W) (hc : c < 2 ^ W) (hd : d < 2 ^ W) :
    (mad_lo_cc_madc_hi W cf a b c d).2 * 2 ^ W + (mad_lo_cc_madc_hi W cf a b c d).1
      = (a * b + c + d * 2 ^ W) % 2 ^ (2 * W) ∧
    (mad_lo_cc_madc_hi W cf a b c d).1 < 2 ^ W ∧
    (mad_lo_cc_madc_hi W cf a b c d).2 < 2 ^ W := by
  obtain ⟨_, _, hsplit⟩ := mul_split W a b ha hb
  obtain ⟨s1, s2, _⟩ := add_cc_step W cf (__mul_lo W a b) c (mul_lo_lt W a b hW) hc
  simp only [mad_lo_cc_madc_hi, madc_hi_eq W _ a b d hW, mad_lo_cc_eq W cf a b c hW,
    ucast_of_lt W c hc, ucast_of_lt W d hd]
  rw [mul_lo_val W a b hW ha hb] at s1 s2 ⊢
  rw [mul_hi_val W a b hW ha hb]
  generalize (__add_cc W cf (a * b % 2 ^ W) c).1 = r0 at s1 s2 ⊢
  generalize (__add_cc W cf (a * b % 2 ^ W) c).2 = f at s1 ⊢
  have e2 : 2 ^ (2 * W) = 2 ^ W * 2 ^ W := by rw [two_mul, Nat.pow_add]
  have hr1 : uadd W (uadd W (a * b / 2 ^ W) d) f = (a * b / 2 ^ W + d + f) % 2 ^ W := by
    simp only [uadd, Nat.mod_add_mod]
  rw [hr1, e2]
  refine ⟨?_, s2, Nat.mod_lt _ (two_pow_pos W)⟩
  symm
  apply nat_mod_of_carry _ _ _ ((a * b / 2 ^ W + d + f) / 2 ^ W)
  · have hs := Nat.mod_add_div (a * b / 2 ^ W + d + f) (2 ^ W)
    generalize (a * b / 2 ^ W + d + f) % 2 ^ W = m at hs ⊢
    generalize (a * b / 2 ^ W + d + f) / 2 ^ W = q at hs ⊢
    generalize a * b / 2 ^ W = hi at hs hsplit
    generalize a * b % 2 ^ W = lo at hsplit s1
    generalize 2 ^ W = P at *
    zify at hs hsplit s1 ⊢
    linear_combination (P : Int) * hs + hsplit + s1
  · have hm : (a * b / 2 ^ W + d + f) % 2 ^ W + 1 ≤ 2 ^ W := Nat.mod_lt _ (two_pow_pos W)
    have := Nat.mul_le_mul_right (2 ^ W) hm
    rw [Nat.add_mul, Nat.one_mul] at this
    omega


/-- C18 as amended: for both limb widths and all limbs `a`, `b`, `c`, `d`,
`__mad_lo_cc(r0, a, b, c)` then `__madc_hi(r1, a, b, d)` on one flag gives limbs
with `r1 * 2 ^ W + r0 = (a * b + c + d * 2 ^ W) mod 2 ^ (2 * W)`: the addend `d`
enters at weight `2 ^ W`; the result is exact whenever
`a * b + c + d * 2 ^ W < 2 ^ (2 * W)`, in particular `a * b + c` for `d = 0`. -/
theorem mad_lo_cc_madc_hi_amended (W a b c d cf : Nat) (hW : W = 32 ∨ W = 64)
    (ha : a < 2 ^ W) (hb : b < 2 ^ W) (hc : c < 2 ^ W) (hd : d < 2 ^ W) :
    (mad_lo_cc_madc_hi W cf a b c d).2 * 2 ^ W + (mad_lo_cc_madc_hi W cf a b c d).1
      = (a * b + c + d * 2 ^ W) % 2 ^ (2 * W) ∧
    (mad_lo_cc_madc_hi W cf a b c d).1 < 2 ^ W ∧
    (mad_lo_cc_madc_hi W cf a b c d).2 < 2 ^ W ∧
    (a * b + c + d * 2 ^ W < 2 ^ (2 * W) →
      (mad_lo_cc_madc_hi W cf a b c d).2 * 2 ^ W + (mad_lo_cc_madc_hi W cf a b c d).1
        = a * b + c + d * 2 ^ W) ∧
    (d = 0 →
      (mad_lo_cc_madc_hi W cf a b c d).2 * 2 ^ W + (mad_lo_cc_madc_hi W cf a b c d).1
        = a * b + c) := by
  obtain ⟨h1, h2, h3⟩ := mad_lo_cc_madc_hi_value W a b c d cf hW ha hb hc hd
  refine ⟨h1, h2, h3, ?_, ?_⟩
  · intro hlt
    rw [h1, Nat.mod_eq_of_lt hlt]
  · intro hd0
    subst hd0
    have e2 : 2 ^ (2 * W) = 2 ^ W * 2 ^ W := by rw [two_mul, Nat.pow_add]
    have hab : a * b + 2 ^ W ≤ 2 ^ W * 2 ^ W := by
      have hb1 : b + 1 ≤ 2 ^ W := hb
      calc a * b + 2 ^ W ≤ (2 ^ W - 1) * b + 2 ^ W :=
            Nat.add_le_add_right (Nat.mul_le_mul_right b (by omega)) _
        _ ≤ (2 ^ W - 1) * (2 ^ W - 1) + 2 ^ W :=
            Nat.add_le_add_right (Nat.mul_le_mul_left _ (by omega)) _
        _ ≤ 2 ^ W * 2 ^ W := by
            have := two_pow_pos W
            generalize 2 ^ W = P at this
            obtain ⟨n, rfl⟩ : ∃ n, P = n + 1 := ⟨P - 1, by omega⟩
            simp only [Nat.add_sub_cancel]
            nlinarith
    rw [h1, Nat.zero_mul, Nat.add_zero, Nat.mod_eq_of_lt (by rw [e2]; omega)]

theorem mad_lo_cc_madc_hi_amended_witness :
    mad_lo_cc_madc_hi 32 0 0xFFFFFFFF 0xFFFFFFFF 0 0xFFFFFFFF = (1, 0xFFFFFFFD) ∧
    (mad_lo_cc_madc_hi 32 0 0xFFFFFFFF 0xFFFFFFFF 0 0xFFFFFFFF).2 * 2 ^ 32
        + (mad_lo_cc_madc_hi 32 0 0xFFFFFFFF 0xFFFFFFFF 0 0xFFFFFFFF).1
      = (0xFFFFFFFF * 0xFFFFFFFF + 0 + 0xFFFFFFFF * 2 ^ 32) % 2 ^ (2 * 32) ∧
    (mad_lo_cc_madc_hi 64 0 0xFFFFFFFFFFFFFFFF 0xFFFFFFFFFFFFFFFF 0xFFFFFFFFFFFFFFFF 0).2
          * 2 ^ 64
        + (mad_lo_cc_madc_hi 64 0 0xFFFFFFFFFFFFFFFF 0xFFFFFFFFFFFFFFFF
            0xFFFFFFFFFFFFFFFF 0).1
      = 0xFFFFFFFFFFFFFFFF * 0xFFFFFFFFFFFFFFFF + 0xFFFFFFFFFFFFFFFF :=
  ⟨by decide,
   (mad_lo_cc_madc_hi_amended 32 0xFFFFFFFF 0xFFFFFFFF 0 0xFFFFFFFF 0 (Or.inl rfl)
      (by decide) (by decide) (by decide) (by decide)).1,
   (mad_lo_cc_madc_hi_amended 64 0xFFFFFFFFFFFFFFFF 0xFFFFFFFFFFFFFFFF 0xFFFFFFFFFFFFFFFF 0 0
      (Or.inr rfl) (by decide) (by decide) (by decide) (by decide)).2.2.2.2 rfl⟩

/-- C18 as stated fails: with `W = 32`, `a = b = c = 0`, `d = 1` the sequence
gives `r0 = 0`, `r1 = 1`, so `r1 * 2 ^ 32 + r0 = 2 ^ 32`, not
`a * b + c + d = 1`. -/
theorem mad_lo_cc_madc_hi_counterexample :
    mad_lo_cc_madc_hi 32 0 0 0 0 1 = (0, 1) ∧
    ¬ ((mad_lo_cc_madc_hi 32 0 0 0 0 1).2 * 2 ^ 32 + (mad_lo_cc_madc_hi 32 0 0 0 0 1).1
        = 0 * 0 + 0 + 1) := by
  decide

theorem ltFlag_le_one (x y : Nat) : ltFlag x y ≤ 1 := by
  unfold ltFlag; split <;> omega

theorem lor_le_one (x y : Nat) (hx : x ≤ 1) (hy : y ≤ 1) : x ||| y ≤ 1 := by
  rcases lor_bit_cases x y (by omega) (by omega) with ⟨h, _⟩ | ⟨h, _⟩ <;> omega

/-- A flag that is a bit stays a bit across every macro invocation. -/
theorem flagAfter_le_one (W : Nat) (hW : W = 32 ∨ W = 64) (cf : Nat) (hcf : cf ≤ 1) :
    ∀ p : Prim, p.flagAfter W cf ≤ 1
  | .add_cc a b => ltFlag_le_one _ _
  | .addc a b => hcf
  | .addc_cc a b => lor_le_one _ _ (ltFlag_le_one _ _) (ltFlag_le_one _ _)
  | .addcy => hcf
  | .addcy2 carry => ltFlag_le_one _ _
  | .sub_cc a b => ltFlag_le_one _ _
  | .subc a b => hcf
  | .subc_cc a b => lor_le_one _ _ (ltFlag_le_one _ _) (ltFlag_le_one _ _)
  | .mad_lo_cc a b c => by
      simp only [Prim.flagAfter, mad_lo_cc_eq W cf a b c hW]
      exact ltFlag_le_one _ _
  | .mad_hi_cc a b c => by
      simp only [Prim.flagAfter, mad_hi_cc_eq W cf a b c hW]
      exact ltFlag_le_one _ _
  | .madc_hi a b c => by
      simp only [Prim.flagAfter, madc_hi_eq W cf a b c hW]
      exact hcf
  | .madc_lo_cc a b c => by
      simp only [Prim.flagAfter, madc_lo_cc_eq W cf a b c hW]
      exact lor_le_one _ _ (ltFlag_le_one _ _) (ltFlag_le_one _ _)
  | .madc_hi_cc a b c => by
      simp only [Prim.flagAfter, madc_hi_cc_val W cf a b c hW hcf]
      have h1 := mul_hi_lt W a b hW
      have h2 := ucast_lt W c
      have : (__mul_hi W a b + ucast W c + cf) / 2 ^ W < 2 := by
        apply Nat.div_lt_of_lt_mul
        omega
      omega

theorem chainFlags_le_one (W : Nat) (hW : W = 32 ∨ W = 64) :
    ∀ (ps : List Prim) (cf : Nat), cf ≤ 1 → ∀ f ∈ chainFlags W cf ps, f ≤ 1
  | [], cf, hcf, f, hf => by
      simp only [chainFlags, List.mem_singleton] at hf
      omega
  | p :: ps, cf, hcf, f, hf => by
      simp only [chainFlags, List.mem_cons] at hf
      rcases hf with rfl | hf
      · exact hcf
      · exact chainFlags_le_one W hW ps _ (flagAfter_le_one W hW cf hcf p) f hf

/-- C16: the carry/borrow state is a single bit.  For both limb widths, if the
flag is in `{0, 1}` before a macro runs, it is in `{0, 1}` after any of
`__add_cc`, `__addc_cc`, `__addcy2`, `__sub_cc`, `__subc_cc`, `__mad_lo_cc`,
`__mad_hi_cc`, `__madc_lo_cc`, `__madc_hi_cc` (and after the macros that do not
assign it), for all operands; hence along any chain that starts from flag 0
every flag is in `{0, 1}`. -/
theorem carry_flag_is_bit (W : Nat) (hW : W = 32 ∨ W = 64) :
    (∀ (cf : Nat), (cf = 0 ∨ cf = 1) → ∀ (a b c : Nat),
      ((__add_cc W cf a b).2 = 0 ∨ (__add_cc W cf a b).2 = 1) ∧
      ((__addc_cc W cf a b).2 = 0 ∨ (__addc_cc W cf a b).2 = 1) ∧
      ((__addcy2 W cf a).2 = 0 ∨ (__addcy2 W cf a).2 = 1) ∧
      ((__sub_cc W cf a b).2 = 0 ∨ (__sub_cc W cf a b).2 = 1) ∧
      ((__subc_cc W cf a b).2 = 0 ∨ (__subc_cc W cf a b).2 = 1) ∧
      ((__mad_lo_cc W cf a b c).2 = 0 ∨ (__mad_lo_cc W cf a b c).2 = 1) ∧
      ((__mad_hi_cc W cf a b c).2 = 0 ∨ (__mad_hi_cc W cf a b c).2 = 1) ∧
      ((__madc_lo_cc W cf a b c).2 = 0 ∨ (__madc_lo_cc W cf a b c).2 = 1) ∧
      ((__madc_hi_cc W cf a b c).2 = 0 ∨ (__madc_hi_cc W cf a b c).2 = 1)) ∧
    (∀ (p : Prim) (cf : Nat), (cf = 0 ∨ cf = 1) →
      (p.flagAfter W cf = 0 ∨ p.flagAfter W cf = 1)) ∧
    (∀ (ps : List Prim), ∀ f ∈ chainFlags W 0 ps, f = 0 ∨ f = 1) := by
  have bit : ∀ n : Nat, n ≤ 1 → n = 0 ∨ n = 1 := fun n h => by omega
  have step : ∀ (p : Prim) (cf : Nat), (cf = 0 ∨ cf = 1) →
      (p.flagAfter W cf = 0 ∨ p.flagAfter W cf = 1) :=
    fun p cf hcf => bit _ (flagAfter_le_one W hW cf (by omega) p)
  refine ⟨?_, step, ?_⟩
  · intro cf hcf a b c
    exact ⟨step (.add_cc a b) cf hcf, step (.addc_cc a b) cf hcf, step (.addcy2 a) cf hcf,
      step (.sub_cc a b) cf hcf, step (.subc_cc a b) cf hcf, step (.mad_lo_cc a b c) cf hcf,
      step (.mad_hi_cc a b c) cf hcf, step (.madc_lo_cc a b c) cf hcf,
      step (.madc_hi_cc a b c) cf hcf⟩
  · intro ps f hf
    exact bit _ (chainFlags_le_one W hW ps 0 (by omega) f hf)

theorem carry_flag_is_bit_witness :
    chainFlags 32 0 [.add_cc 0xFFFFFFFF 1, .addc_cc 0xFFFFFFFF 0, .madc_hi_cc 3 4 5]
      = [0, 1, 1, 0] ∧
    ((__madc_hi_cc 32 1 0xFFFFFFFF 0xFFFFFFFF 0xFFFFFFFF).2 = 0 ∨
      (__madc_hi_cc 32 1 0xFFFFFFFF 0xFFFFFFFF 0xFFFFFFFF).2 = 1) ∧
    (∀ f ∈ chainFlags 64 0 [.sub_cc 0 1, .subc_cc 0 0, .madc_lo_cc 3 4 5],
      f = 0 ∨ f = 1) :=
  ⟨by decide,
   ((carry_flag_is_bit 32 (Or.inl rfl)).1 1 (Or.inr rfl)
      0xFFFFFFFF 0xFFFFFFFF 0xFFFFFFFF).2.2.2.2.2.2.2.2,
   (carry_flag_is_bit 64 (Or.inr rfl)).2.2 [.sub_cc 0 1, .subc_cc 0 0, .madc_lo_cc 3 4 5]⟩


/-- Limb sequences of one length with limbs below `2 ^ W` and the same value
are equal limb for limb. -/
theorem limbsValue_inj (W : Nat) : ∀ (xs ys : List Nat), xs.length = ys.length →
    (∀ x ∈ xs, x < 2 ^ W) → (∀ y ∈ ys, y < 2 ^ W) →
    limbsValue W xs = limbsValue W ys → xs = ys
  | [], [], _, _, _, _ => rfl
  | [], _ :: _, hlen, _, _, _ => by simp at hlen
  | _ :: _, [], hlen, _, _, _ => by simp at hlen
  | x :: xs, y :: ys, hlen, hx, hy, h => by
      have hx0 : x < 2 ^ W := hx x (List.mem_cons_self _ _)
      have hy0 : y < 2 ^ W := hy y (List.mem_cons_self _ _)
      simp only [limbsValue] at h
      have hP := two_pow_pos W
      have m := congrArg (fun n => n % 2 ^ W) h
      have d := congrArg (fun n => n / 2 ^ W) h
      simp only [Nat.add_mul_mod_self_left, Nat.mod_eq_of_lt hx0, Nat.mod_eq_of_lt hy0] at m
      simp only [Nat.add_mul_div_left _ _ hP, Nat.div_eq_of_lt hx0, Nat.div_eq_of_lt hy0,
        Nat.zero_add] at d
      have ih := limbsValue_inj W xs ys (by simpa using hlen)
        (fun z hz => hx z (List.mem_cons_of_mem _ hz))
        (fun z hz => hy z (List.mem_cons_of_mem _ hz)) d
      rw [m, ih]

/-- The whole addition chain is exact: limbs plus `2 ^ (W * L)` times the final
carry is the sum. -/
theorem mp_add_spec (W : Nat) (hW : 0 < W) : ∀ (a b : List Nat),
    b.length = a.length → (∀ x ∈ a, x < 2 ^ W) → (∀ x ∈ b, x < 2 ^ W) →
    (mp_add W a b).1.length = a.length ∧
    (∀ x ∈ (mp_add W a b).1, x < 2 ^ W) ∧ (mp_add W a b).2 ≤ 1 ∧
    limbsValue W (mp_add W a b).1 + 2 ^ (W * a.length) * (mp_add W a b).2
      = limbsValue W a + limbsValue W b
  | [], b, hlen, _, _ => by
      have hb : b = [] := List.length_eq_zero.mp (by simpa using hlen)
      subst hb
      simp [mp_add, limbsValue]
  | _ :: _, [], hlen, _, _ => by simp at hlen
  | x :: as, y :: bs, hlen, ha, hb => by
      have hx : x < 2 ^ W := ha x (List.mem_cons_self _ _)
      have hy : y < 2 ^ W := hb y (List.mem_cons_self _ _)
      obtain ⟨s1, s2, s3⟩ := add_cc_step W 0 x y hx hy
      obtain ⟨i1, i2, i3, i4⟩ := addc_cc_chain_spec W hW as bs
        (__add_cc W 0 x y).2 s3 (by simpa using hlen)
        (fun z hz => ha z (List.mem_cons_of_mem _ hz))
        (fun z hz => hb z (List.mem_cons_of_mem _ hz))
      simp only [mp_add, limbsValue, List.length_cons]
      refine ⟨by rw [i1], ?_, i3, ?_⟩
      · intro z hz
        rcases List.mem_cons.mp hz with rfl | hz
        · exact s2
        · exact i2 z hz
      · have e : 2 ^ (W * (as.length + 1)) = 2 ^ W * 2 ^ (W * as.length) := by
          rw [Nat.mul_succ, Nat.pow_add, Nat.mul_comm]
        rw [e]
        zify at s1 i4 ⊢
        linear_combination s1 + (2 : Int) ^ W * i4

/-- The whole subtraction chain is exact: limbs plus subtrahend is the minuend
plus `2 ^ (W * L)` times the final borrow. -/
theorem mp_sub_spec (W : Nat) (hW : 0 < W) : ∀ (a b : List Nat),
    b.length = a.length → (∀ x ∈ a, x < 2 ^ W) → (∀ x ∈ b, x < 2 ^ W) →
    (mp_sub W a b).1.length = a.length ∧
    (∀ x ∈ (mp_sub W a b).1, x < 2 ^ W) ∧ (mp_sub W a b).2 ≤ 1 ∧
    limbsValue W (mp_sub W a b).1 + limbsValue W b
      = limbsValue W a + 2 ^ (W * a.length) * (mp_sub W a b).2
  | [], b, hlen, _, _ => by
      have hb : b = [] := List.length_eq_zero.mp (by simpa using hlen)
      subst hb
      simp [mp_sub, limbsValue]
  | _ :: _, [], hlen, _, _ => by simp at hlen
  | x :: as, y :: bs, hlen, ha, hb => by
      have hx : x < 2 ^ W := ha x (List.mem_cons_self _ _)
      have hy : y < 2 ^ W := hb y (List.mem_cons_self _ _)
      obtain ⟨s1, s2, s3⟩ := sub_cc_step W 0 x y hx hy
      obtain ⟨i1, i2, i3, i4⟩ := subc_cc_chain_spec W hW as bs
        (__sub_cc W 0 x y).2 s3 (by simpa using hlen)
        (fun z hz => ha z (List.mem_cons_of_mem _ hz))
        (fun z hz => hb z (List.mem_cons_of_mem _ hz))
      simp only [mp_sub, limbsValue, List.length_cons]
      refine ⟨by rw [i1], ?_, i3, ?_⟩
      · intro z hz
        rcases List.mem_cons.mp hz with rfl | hz
        · exact s2
        · exact i2 z hz
      · have e : 2 ^ (W * (as.length + 1)) = 2 ^ W * 2 ^ (W * as.length) := by
          rw [Nat.mul_succ, Nat.pow_add, Nat.mul_comm]
        rw [e]
        zify at s1 i4 ⊢
        linear_combination s1 + (2 : Int) ^ W * i4

/-- C13: for every `L ≥ 1` and all `L`-limb integers `a`, `b`, if the borrow
chain computing `r = a - b` ends with borrow 0, then the carry chain computing
`r2 = r + b` yields `r2` equal to `a` limb for limb and ends with carry 0. -/
theorem sub_add_roundtrip (W : Nat) (hW : W = 32 ∨ W = 64) (a b : List Nat)
    (hL : 1 ≤ a.length) (hlen : b.length = a.length)
    (ha : ∀ x ∈ a, x < 2 ^ W) (hb : ∀ x ∈ b, x < 2 ^ W)
    (hborrow : (mp_sub W a b).2 = 0) :
    (mp_add W (mp_sub W a b).1 b).1 = a ∧ (mp_add W (mp_sub W a b).1 b).2 = 0 := by
  have _ := hL
  have hpos := width_pos W hW
  obtain ⟨s1, s2, _, s4⟩ := mp_sub_spec W hpos a b hlen ha hb
  rw [hborrow, Nat.mul_zero, Nat.add_zero] at s4
  obtain ⟨a1, a2, a3, a4⟩ := mp_add_spec W hpos (mp_sub W a b).1 b (by rw [s1, hlen]) s2 hb
  rw [s4, s1] at a4
  have hva := limbsValue_lt W a ha
  have hvr := limbsValue_lt W (mp_add W (mp_sub W a b).1 b).1 a2
  rw [a1, s1] at hvr
  have hc : (mp_add W (mp_sub W a b).1 b).2 = 0 := by
    generalize (mp_add W (mp_sub W a b).1 b).2 = c at a3 a4
    have : c = 0 ∨ c = 1 := by omega
    rcases this with rfl | rfl
    · rfl
    · rw [Nat.mul_one] at a4; omega
  rw [hc, Nat.mul_zero, Nat.add_zero] at a4
  exact ⟨limbsValue_inj W _ a (by rw [a1, s1]) a2 ha a4, hc⟩

theorem sub_add_roundtrip_witness :
    mp_sub 32 [0, 5] [1, 2] = ([0xFFFFFFFF, 2], 0) ∧
    (mp_add 32 (mp_sub 32 [0, 5] [1, 2]).1 [1, 2]).1 = [0, 5] ∧
    (mp_add 32 (mp_sub 32 [0, 5] [1, 2]).1 [1, 2]).2 = 0 :=
  ⟨by decide,
   sub_add_roundtrip 32 (Or.inl rfl) [0, 5] [1, 2] (by decide) rfl (by decide) (by decide)
     (by decide)⟩


/-! ## Bit addressing -/

/-- Bit `j` of a multi-limb value is bit `j mod W` of limb `j / W`. -/
theorem testBit_limbsValue (W : Nat) (hW : 0 < W) : ∀ (a : List Nat),
    (∀ x ∈ a, x < 2 ^ W) → ∀ j : Nat,
    (limbsValue W a).testBit j = (a.getD (j / W) 0).testBit (j % W)
  | [], _, j => by simp [limbsValue]
  | x :: xs, h, j => by
      have hx : x < 2 ^ W := h x (List.mem_cons_self _ _)
      have ih := testBit_limbsValue W hW xs (fun y hy => h y (List.mem_cons_of_mem _ hy))
      simp only [limbsValue]
      rw [Nat.add_comm, Nat.testBit_mul_pow_two_add _ hx]
      by_cases hj : j < W
      · rw [if_pos hj, Nat.div_eq_of_lt hj, Nat.mod_eq_of_lt hj]
        rfl
      · rw [if_neg hj]
        obtain ⟨i, rfl⟩ : ∃ i, j = i + W := ⟨j - W, by omega⟩
        rw [Nat.add_sub_cancel, Nat.add_div_right _ hW, Nat.add_mod_right, ih i]
        rfl

/-- Masking with a single bit and comparing with zero reads that bit. -/
theorem and_two_pow_ne_zero (x k : Nat) : (x &&& 2 ^ k != 0) = x.testBit k := by
  have h : x &&& 2 ^ k = if x.testBit k then 2 ^ k else 0 := by
    apply Nat.eq_of_testBit_eq
    intro i
    by_cases hi : k = i
    · subst hi
      by_cases hb : x.testBit k <;> simp [hb, Nat.testBit_two_pow]
    · by_cases hb : x.testBit k <;> simp [hb, Nat.testBit_two_pow, hi]
  rw [h]
  by_cases hb : x.testBit k
  · have := two_pow_pos k
    simp [hb]
  · simp [hb]

theorem int_to_limb_two_pow (W n : Nat) (h : n < W) : int_to_limb W ((2 : Int) ^ n) = 2 ^ n := by
  unfold int_to_limb
  have hlt : (2 : Int) ^ n < (2 : Int) ^ W := by
    exact_mod_cast Nat.pow_lt_pow_right (by decide : 1 < 2) h
  rw [Int.emod_eq_of_lt (by positivity) hlt]
  have : ((2 : Int) ^ n) = ((2 ^ n : Nat) : Int) := by push_cast; rfl
  rw [this, Int.toNat_natCast]

theorem limb_index_lt (W bit L : Nat) (h : bit < W * L) : bit / W < L :=
  Nat.div_lt_of_lt_mul h

/-- Where its shift is defined and does not reach the sign bit of a narrower
`int` (`W = 32`, or offset below 31), `mp_test_bit` reads bit `bit mod W` of
limb `bit / W`, which is bit `bit` of the value. -/
theorem mp_test_bit_defined (W : Nat) (a : List Nat) (bit : Nat) (hW : W = 32 ∨ W = 64)
    (ha : ∀ x ∈ a, x < 2 ^ W) (hbit : bit < W * a.length)
    (hoff : W = 32 ∨ bit % W < 31) :
    mp_test_bit W a bit = some ((a.getD (bit / W) 0).testBit (bit % W)) ∧
    mp_test_bit W a bit = some (decide (limbsValue W a / 2 ^ bit % 2 = 1)) := by
  have hpos := width_pos W hW
  have hidx := limb_index_lt W bit a.length hbit
  have hmod : bit % W < W := Nat.mod_lt _ hpos
  have hval : (a.getD (bit / W) 0).testBit (bit % W)
      = decide (limbsValue W a / 2 ^ bit % 2 = 1) := by
    rw [← testBit_limbsValue W hpos a ha bit, Nat.testBit_to_div_mod]
  have hfirst : mp_test_bit W a bit = some ((a.getD (bit / W) 0).testBit (bit % W)) := by
    simp only [mp_test_bit, List.getD_eq_getElem?_getD, List.getElem?_eq_getElem hidx,
      Option.getD_some]
    by_cases h31 : bit % W < 31
    · simp only [int_one_shl, if_pos h31, int_to_limb_two_pow W _ hmod, and_two_pow_ne_zero]
    · have hW32 : W = 32 := by
        rcases hoff with h | h
        · exact h
        · exact absurd h h31
      subst hW32
      have h31' : bit % 32 = 31 := by omega
      have hs : int_one_shl 31 = some (-(2 ^ 31)) := by decide
      have hm : int_to_limb 32 (-(2 ^ 31)) = 2 ^ 31 := by decide
      rw [h31', hs]
      simp only [hm, and_two_pow_ne_zero]
  exact ⟨hfirst, by rw [hfirst, hval]⟩

theorem mp_test_bit_defined_witness :
    mp_test_bit 32 [0, 0x80000000] 63 = some true ∧
    mp_test_bit 64 [0x40000000] 30 = some (decide (limbsValue 64 [0x40000000] / 2 ^ 30 % 2 = 1)) :=
  ⟨by decide,
   (mp_test_bit_defined 64 [0x40000000] 30 (Or.inr rfl) (by decide) (by decide)
      (Or.inr (by decide))).2⟩

/-- C11 at `W = 64`: with the single limb `0x100000000` (only bit 32 set),
`mp_test_bit(a, 31)` masks with `(uint64_t)(1 << 31) = 0xFFFFFFFF80000000` and
returns true although bit 31 is 0; `mp_test_bit(a, 32)` evaluates `1 << 32` on
an `int`, which has no defined result, and on a shifter that takes the count
modulo 32 it reads bit 0 and returns false although bit 32 is 1. -/
theorem mp_test_bit_wide_limb_fails :
    mp_test_bit 64 [0x100000000] 31 = some true ∧
    limbsValue 64 [0x100000000] / 2 ^ 31 % 2 = 0 ∧
    ([0x100000000].getD (31 / 64) 0).testBit (31 % 64) = false ∧
    mp_test_bit 64 [0x100000000] 32 = none ∧
    mp_test_bit_masked 64 [0x100000000] 32 = some false ∧
    limbsValue 64 [0x100000000] / 2 ^ 32 % 2 = 1 := by
  decide


theorem getD_set (a : List Nat) (i n v : Nat) (hi : i < a.length) :
    (a.set i v).getD n 0 = if n = i then v else a.getD n 0 := by
  simp only [List.getD_eq_getElem?_getD, List.getElem?_set]
  by_cases h : i = n
  · subst h; simp [hi]
  · have h' : ¬ n = i := fun e => h e.symm
    simp [h, h']

theorem limb_t_one_shl_some (W T k : Nat) (hT : W ≤ T) (hk : k < W) :
    limb_t_one_shl T k = some (2 ^ k) := by
  have hkT : k < T := by omega
  have hlt : 2 ^ k < 2 ^ T := Nat.pow_lt_pow_right (by decide) hkT
  simp only [limb_t_one_shl, if_pos hkT, Nat.one_shiftLeft, Nat.mod_eq_of_lt hlt]

theorem getD_lt (W : Nat) (a : List Nat) (ha : ∀ x ∈ a, x < 2 ^ W) (n : Nat) :
    a.getD n 0 < 2 ^ W := by
  rw [List.getD_eq_getElem?_getD]
  by_cases h : n < a.length
  · rw [List.getElem?_eq_getElem h, Option.getD_some]
    exact ha _ (List.getElem_mem _)
  · rw [List.getElem?_eq_none (by omega), Option.getD_none]
    exact two_pow_pos W

theorem div_mod_pair (W j bit : Nat) (h1 : j / W = bit / W) (h2 : j % W = bit % W) :
    j = bit := by
  rw [← Nat.div_add_mod j W, ← Nat.div_add_mod bit W, h1, h2]

/-- What `mp_set_bit` does when `mp_limb_t` is at least as wide as a limb: it
is defined, or-s `2 ^ (bit mod W)` into limb `bit / W`, sets bit `bit` of the
value, and leaves every other bit of every limb unchanged. -/
theorem mp_set_bit_sets (W T : Nat) (a : List Nat) (bit : Nat) (hW : W = 32 ∨ W = 64)
    (hT : W ≤ T) (ha : ∀ x ∈ a, x < 2 ^ W) (hbit : bit < W * a.length) :
    mp_set_bit W T a bit
      = some (a.set (bit / W) (a.getD (bit / W) 0 ||| 2 ^ (bit % W))) ∧
    (a.set (bit / W) (a.getD (bit / W) 0 ||| 2 ^ (bit % W))).length = a.length ∧
    (∀ x ∈ a.set (bit / W) (a.getD (bit / W) 0 ||| 2 ^ (bit % W)), x < 2 ^ W) ∧
    limbsValue W (a.set (bit / W) (a.getD (bit / W) 0 ||| 2 ^ (bit % W)))
      = limbsValue W a ||| 2 ^ bit ∧
    (∀ n m : Nat, (n, m) ≠ (bit / W, bit % W) →
      ((a.set (bit / W) (a.getD (bit / W) 0 ||| 2 ^ (bit % W))).getD n 0).testBit m
        = (a.getD n 0).testBit m) ∧
    ((a.set (bit / W) (a.getD (bit / W) 0 ||| 2 ^ (bit % W))).getD (bit / W) 0).testBit
        (bit % W) = true := by
  have hpos := width_pos W hW
  have hidx := limb_index_lt W bit a.length hbit
  have hmod : bit % W < W := Nat.mod_lt _ hpos
  have hlimb := getD_lt W a ha (bit / W)
  have hnew : a.getD (bit / W) 0 ||| 2 ^ (bit % W) < 2 ^ W :=
    Nat.or_lt_two_pow hlimb (Nat.pow_lt_pow_right (by decide) hmod)
  have hbound : ∀ x ∈ a.set (bit / W) (a.getD (bit / W) 0 ||| 2 ^ (bit % W)), x < 2 ^ W := by
    intro x hx
    rcases List.mem_or_eq_of_mem_set hx with h | h
    · exact ha x h
    · rw [h]; exact hnew
  have hother : ∀ n m : Nat, (n, m) ≠ (bit / W, bit % W) →
      ((a.set (bit / W) (a.getD (bit / W) 0 ||| 2 ^ (bit % W))).getD n 0).testBit m
        = (a.getD n 0).testBit m := by
    intro n m hne
    rw [getD_set a _ n _ hidx]
    by_cases hn : n = bit / W
    · have hm : ¬ bit % W = m := fun e => hne (by rw [hn, e])
      rw [if_pos hn, Nat.testBit_or, Nat.testBit_two_pow, hn]
      simp [hm]
    · rw [if_neg hn]
  have hself : ((a.set (bit / W) (a.getD (bit / W) 0 ||| 2 ^ (bit % W))).getD (bit / W)
      0).testBit (bit % W) = true := by
    rw [getD_set a _ _ _ hidx, if_pos rfl, Nat.testBit_or, Nat.testBit_two_pow]
    simp
  refine ⟨?_, List.length_set _ _ _, hbound, ?_, hother, hself⟩
  · have hget : a[bit / W]? = some (a.getD (bit / W) 0) := by
      rw [List.getD_eq_getElem?_getD, List.getElem?_eq_getElem hidx, Option.getD_some]
    simp only [mp_set_bit, hget, limb_t_one_shl_some W T _ hT hmod, ucast_of_lt W _ hnew]
  · apply Nat.eq_of_testBit_eq
    intro j
    rw [testBit_limbsValue W hpos _ hbound j, Nat.testBit_or, Nat.testBit_two_pow,
      testBit_limbsValue W hpos a ha j]
    by_cases hj : (j / W, j % W) = (bit / W, bit % W)
    · have h1 : j / W = bit / W := congrArg Prod.fst hj
      have h2 : j % W = bit % W := congrArg Prod.snd hj
      have hjb : j = bit := div_mod_pair W j bit h1 h2
      subst hjb
      rw [hself]
      simp
    · have hjb : ¬ bit = j := fun e => hj (by rw [e])
      rw [hother _ _ hj]
      simp [hjb]

theorem mp_set_bit_sets_witness :
    mp_set_bit 32 64 [0, 5] 63 = some [0, 0x80000005] ∧
    limbsValue 32 ([0, 5].set (63 / 32) (([0, 5] : List Nat).getD (63 / 32) 0 ||| 2 ^ (63 % 32)))
      = limbsValue 32 [0, 5] ||| 2 ^ 63 :=
  ⟨by decide,
   (mp_set_bit_sets 32 64 [0, 5] 63 (Or.inl rfl) (by decide) (by decide) (by decide)).2.2.2.1⟩

/-- After `mp_set_bit`, `mp_test_bit` on the same index returns true wherever
its own shift is defined below the sign bit (`W = 32`, or offset below 31). -/
theorem mp_set_bit_readback (W T : Nat) (a : List Nat) (bit : Nat) (hW : W = 32 ∨ W = 64)
    (hT : W ≤ T) (ha : ∀ x ∈ a, x < 2 ^ W) (hbit : bit < W * a.length)
    (hoff : W = 32 ∨ bit % W < 31) :
    ∃ r, mp_set_bit W T a bit = some r ∧ mp_test_bit W r bit = some true := by
  obtain ⟨h1, h2, h3, _, _, h6⟩ := mp_set_bit_sets W T a bit hW hT ha hbit
  refine ⟨_, h1, ?_⟩
  rw [(mp_test_bit_defined W _ bit hW h3 (by rw [h2]; exact hbit) hoff).1, h6]

theorem mp_set_bit_readback_witness :
    ∃ r, mp_set_bit 64 64 [0] 30 = some r ∧ mp_test_bit 64 r 30 = some true :=
  mp_set_bit_readback 64 64 [0] 30 (Or.inr rfl) (by decide) (by decide) (by decide)
    (Or.inr (by decide))

/-- C12 at `W = 64`, `a = [0]`, `bit_index = 32`: `mp_set_bit` stores
`[0x100000000]` (the value or-ed with `2 ^ 32`), but `mp_test_bit` on the same
index evaluates `1 << 32` on an `int`, which has no defined result, so it does
not return true; on a shifter that takes the count modulo 32 it reads bit 0
and returns false. -/
theorem mp_set_bit_test_bit_wide_limb_fails :
    mp_set_bit 64 64 [0] 32 = some [0x100000000] ∧
    limbsValue 64 [0x100000000] = limbsValue 64 [0] ||| 2 ^ 32 ∧
    mp_test_bit 64 [0x100000000] 32 = none ∧
    mp_test_bit 64 [0x100000000] 32 ≠ some true ∧
    mp_test_bit_masked 64 [0x100000000] 32 = some false := by
  decide

end Mp
